import Mathlib

/-!
Verification of the promql-engine core: a shallow embedding of the
distributed-execution planner (`logicalplan/distribute.go`), the vector
selector (`physicalplan/scan/vector_selector.go`) and the matrix selector
(`execution/scan` matrix selector file), together with theorems settling
the specification claims.

Conventions of the embedding:
* `time.Time` / `time.Duration` values are modelled as `Int` milliseconds
  (the Go code converts them with `UnixMilli`/`Milliseconds` everywhere).
* Go `int64` division truncates toward zero; it is modelled with `Int.tdiv`.
* A `float64` sample value is modelled as `FVal`: an abstract payload plus
  a staleness flag; `value.IsStaleNaN v` becomes `v.stale`.
* Fallible Go functions returning `(T, error)` become `Except Err T`.
-/

namespace logicalplan

/-- Error-free model of a remote engine (`api.RemoteEngine`): its time
window `[minT, maxT]` in milliseconds and the advertised label sets,
of which only the label names matter to the planner. -/
structure RemoteEngine where
  minT : Int
  maxT : Int
  labelSets : List (List String)
deriving DecidableEq, Repr

/-- Query options seen by the planner (`logicalplan.Opts`): start, end,
step and lookback delta, all in milliseconds. -/
structure Opts where
  start : Int
  endT : Int
  step : Int
  lookbackDelta : Int
deriving DecidableEq, Repr

/-- Aggregation operators (`parser.ItemType` restricted to aggregations). -/
inductive AggOp where
  | sum | min | max | group | count | bottomk | topk | avg | quantile | stddev
deriving DecidableEq, Repr

/-- The closed allow-list of distributive aggregations
(`distributiveAggregations` in distribute.go). -/
def distributiveAggregations : List AggOp :=
  [.sum, .min, .max, .group, .count, .bottomk, .topk]

mutual
/-- Logical plan expressions (`parser.Expr` plus the two engine-specific
nodes).  `dedup` is the `Deduplicate` node wrapping a list of
`RemoteExecution`s. -/
inductive Expr where
  | aggregate (op : AggOp) (arg : Expr) (param : Option Expr)
      (grouping : List String) (without : Bool)
  | binary (lhs rhs : Expr)
  | call (name : String) (args : List Expr)
  | vectorSel (name : String)
  | numberLit (v : Int)
  | dedup (exprs : List RemoteExec)

/-- A `RemoteExecution` node: the engine, the query (the Go code stores the
textual form `expr.String()`; the embedding keeps the expression itself,
which determines the text) and the query range start. -/
inductive RemoteExec where
  | mk (engine : RemoteEngine) (query : Expr) (queryRangeStart : Int)
end

/-- Number of steps of the query grid (`numSteps` in distribute.go):
`(end − start) / step + 1` with Go (truncated) integer division. -/
def numSteps (start endT step : Int) : Int :=
  (endT - start).tdiv step + 1

/-- Step-aligned remote start time (`calculateStepAlignedStart`). -/
def calculateStepAlignedStart (engine : RemoteEngine) (opts : Opts) : Int :=
  let originalSteps := numSteps opts.start opts.endT opts.step
  let remoteQuerySteps := numSteps engine.minT opts.endT opts.step
  let stepsToSkip := originalSteps - remoteQuerySteps
  opts.start + stepsToSkip * opts.step

/-- Body of the per-engine loop of `distributeQuery`: either skip the engine
or produce its `RemoteExecution`. -/
def remoteExecFor (expr : Expr) (opts : Opts) (e : RemoteEngine) :
    Option RemoteExec :=
  if e.maxT < opts.start - opts.lookbackDelta then none
  else if e.minT > opts.endT then none
  else
    let start := if e.minT > opts.start then calculateStepAlignedStart e opts
      else opts.start
    some (.mk e expr start)

/-- The `Expressions` list of the `Deduplicate` node built by
`distributeQuery`: one `RemoteExecution` per engine overlapping the query
range. -/
def distributeQuery (expr : Expr) (engines : List RemoteEngine) (opts : Opts) :
    List RemoteExec :=
  engines.foldl (fun acc e =>
    match remoteExecFor expr opts e with
    | none => acc
    | some r => acc ++ [r]) []

/-- Membership-respecting insertion used to model the Go string set
(`map[string]struct{}`). -/
def insertName (s : List String) (l : String) : List String :=
  if l ∈ s then s else s ++ [l]

/-- Insertion sort step for strings (`sort.Strings`). -/
def insertSorted (x : String) : List String → List String
  | [] => [x]
  | y :: ys => if x ≤ y then x :: y :: ys else y :: insertSorted x ys

/-- Insertion sort for strings (`sort.Strings`). -/
def sortStrings : List String → List String
  | [] => []
  | x :: xs => insertSorted x (sortStrings xs)

/-- Remote variant of an aggregation (`newRemoteAggregation`): the grouping
set is widened (for `by`) or narrowed (for `without`) by every label name
advertised by any engine, then sorted. -/
def newRemoteAggregation (op : AggOp) (arg : Expr) (param : Option Expr)
    (grouping : List String) (without : Bool)
    (engines : List RemoteEngine) : Expr :=
  let groupingSet := grouping.foldl insertName []
  let groupingSet := engines.foldl (fun s e =>
    e.labelSets.foldl (fun s lbls =>
      lbls.foldl (fun s lbl =>
        if without then s.erase lbl else insertName s lbl) s) s) groupingSet
  let groupingLabels := sortStrings groupingSet
  .aggregate op arg param groupingLabels without

/-- Distributive test on plan nodes (`isDistributive`); the argument is
`Option` because the Go function takes a possibly-nil parent pointer. -/
def isDistributive : Option Expr → Bool
  | none => false
  | some e =>
    match e with
    | .binary _ _ => false
    | .aggregate op _ _ _ _ => distributiveAggregations.contains op
    | .call _ args => args.length > 0
    | _ => true

/-- Whether a node is an aggregation (`(*current).(*parser.AggregateExpr)`
type switch in `Optimize`). -/
def Expr.isAggregate : Expr → Bool
  | .aggregate _ _ _ _ _ => true
  | _ => false

/-- One visit of the bottom-up rewrite performed by
`DistributedExecutionOptimizer.Optimize` (the closure passed to
`traverseBottomUp`): given the parent and current node it returns the
replacement for the current node together with the stop flag.  The
traversal itself lives outside the planner file; this embeds exactly the
per-node decision logic of Optimize. -/
def optimizeNode (engines : List RemoteEngine) (opts : Opts)
    (parent : Option Expr) (current : Expr) : Expr × Bool :=
  if !isDistributive (some current) then (current, true)
  else
    match current with
    | .aggregate op arg param grouping without =>
      let localAggregation := if op = .count then AggOp.sum else op
      let remoteAggregation := newRemoteAggregation op arg param grouping without engines
      let subQueries := Expr.dedup (distributeQuery remoteAggregation engines opts)
      (.aggregate localAggregation subQueries param grouping without, true)
    | _ =>
      if isDistributive parent then (current, false)
      else (.dedup (distributeQuery current engines opts), true)

end logicalplan

namespace logicalplan

/-- C2 counterexample: with Start=0, End=5, Step=3 and an engine whose
`MinT = 1` (not skipped: `MaxT = 100 ≥ Start − LookbackDelta` and
`MinT ≤ End`), `calculateStepAlignedStart` returns 0, which is smaller
than the engine's MinT, refuting `remoteStart ≥ e.MinT`. -/
theorem calculateStepAlignedStart_can_undershoot_minT :
    let e : RemoteEngine := ⟨1, 100, []⟩
    let opts : Opts := ⟨0, 5, 3, 0⟩
    ¬ (e.maxT < opts.start - opts.lookbackDelta) ∧
    ¬ (e.minT > opts.endT) ∧
    e.minT > opts.start ∧ 0 < opts.step ∧
    calculateStepAlignedStart e opts = 0 ∧
    ¬ (calculateStepAlignedStart e opts ≥ e.minT) := by
  refine ⟨by decide, by decide, by decide, by decide, by decide, by decide⟩

/-- C2 (amended): for every engine that is not skipped with
`e.MinT > Start` and a positive step, the remote start computed by
`calculateStepAlignedStart` is step-aligned with the local grid
(`(remoteStart − Start) mod Step = 0`) and lies within one step below the
engine's MinT (`remoteStart > e.MinT − Step`); the original bound
`remoteStart ≥ e.MinT` fails in general. -/
theorem calculateStepAlignedStart_aligned (e : RemoteEngine) (opts : Opts)
    (hstep : 0 < opts.step) (hmin : opts.start < e.minT)
    (hcov : e.minT ≤ opts.endT) :
    (calculateStepAlignedStart e opts - opts.start) % opts.step = 0 ∧
    e.minT - opts.step < calculateStepAlignedStart e opts := by
  have ha : (0 : Int) ≤ opts.endT - opts.start := by omega
  have hb : (0 : Int) ≤ opts.endT - e.minT := by omega
  have hs : (0 : Int) ≤ opts.step := le_of_lt hstep
  have key : calculateStepAlignedStart e opts =
      opts.start + ((opts.endT - opts.start) / opts.step -
        (opts.endT - e.minT) / opts.step) * opts.step := by
    show opts.start + (numSteps opts.start opts.endT opts.step -
        numSteps e.minT opts.endT opts.step) * opts.step = _
    unfold numSteps
    rw [Int.tdiv_eq_ediv ha hs, Int.tdiv_eq_ediv hb hs]
    ring
  constructor
  · rw [key, add_sub_cancel_left]
    exact Int.mul_emod_left _ _
  · rw [key, sub_mul]
    have h1 : (opts.endT - opts.start) / opts.step * opts.step =
        (opts.endT - opts.start) - (opts.endT - opts.start) % opts.step := by
      rw [eq_sub_iff_add_eq, mul_comm, Int.ediv_add_emod]
    have h2 : (opts.endT - e.minT) / opts.step * opts.step =
        (opts.endT - e.minT) - (opts.endT - e.minT) % opts.step := by
      rw [eq_sub_iff_add_eq, mul_comm, Int.ediv_add_emod]
    have hlt : (opts.endT - opts.start) % opts.step < opts.step :=
      Int.emod_lt_of_pos _ hstep
    have hge : 0 ≤ (opts.endT - e.minT) % opts.step :=
      Int.emod_nonneg _ (ne_of_gt hstep)
    linarith [h1, h2, hlt, hge]

/-- C2 witness: scenario S6 of the spec (Start=0, End=600, Step=30,
engine MinT=75) instantiates the amended alignment theorem. -/
theorem calculateStepAlignedStart_aligned_witness :
    (calculateStepAlignedStart ⟨75, 1000, []⟩ ⟨0, 600, 30, 0⟩ - 0) % 30 = 0 ∧
    (75 : Int) - 30 < calculateStepAlignedStart ⟨75, 1000, []⟩ ⟨0, 600, 30, 0⟩ :=
  calculateStepAlignedStart_aligned ⟨75, 1000, []⟩ ⟨0, 600, 30, 0⟩
    (by decide) (by decide) (by decide)

/-- C4: when the planner distributes a distributive aggregation node, the
replacement is a local aggregation whose operator equals the original one
except that `count` becomes `sum`, whose argument is the `Deduplicate`
wrapping of the `RemoteExecution`s built from the remote aggregation, and
which keeps the original grouping, `Without` flag and parameter. -/
theorem optimizeNode_distributes_aggregation
    (engines : List RemoteEngine) (opts : Opts) (parent : Option Expr)
    (op : AggOp) (arg : Expr) (param : Option Expr)
    (grouping : List String) (without : Bool)
    (hdist : distributiveAggregations.contains op = true) :
    optimizeNode engines opts parent (.aggregate op arg param grouping without) =
      (.aggregate (if op = .count then AggOp.sum else op)
        (.dedup (distributeQuery
          (newRemoteAggregation op arg param grouping without engines) engines opts))
        param grouping without, true) := by
  have hmem : op ∈ distributiveAggregations := by simpa using hdist
  simp [optimizeNode, isDistributive, hmem]

/-- C4 witness: scenario S5 of the spec — a `count by (job)` aggregation
over one remote engine is rewritten into a local `sum by (job)` over the
deduplicated remote distribution of the widened remote aggregation. -/
theorem optimizeNode_distributes_aggregation_witness :
    distributiveAggregations.contains AggOp.count = true ∧
    optimizeNode [⟨0, 100, [["cluster"]]⟩] ⟨0, 100, 10, 5⟩ none
        (.aggregate .count (.vectorSel "http_requests_total") none ["job"] false) =
      (.aggregate AggOp.sum
        (.dedup (distributeQuery
          (newRemoteAggregation .count (.vectorSel "http_requests_total") none
            ["job"] false [⟨0, 100, [["cluster"]]⟩])
          [⟨0, 100, [["cluster"]]⟩] ⟨0, 100, 10, 5⟩))
        none ["job"] false, true) :=
  ⟨by decide, by
    have h := optimizeNode_distributes_aggregation
      [⟨0, 100, [["cluster"]]⟩] ⟨0, 100, 10, 5⟩ none
      .count (.vectorSel "http_requests_total") none ["job"] false (by decide)
    simpa using h⟩

/-- Engine skip test of `distributeQuery`, used to state C10. -/
def engineSkipped (opts : Opts) (e : RemoteEngine) : Prop :=
  e.maxT < opts.start - opts.lookbackDelta ∨ e.minT > opts.endT

instance (opts : Opts) (e : RemoteEngine) : Decidable (engineSkipped opts e) := by
  unfold engineSkipped; infer_instance

/-- Helper: a skipped engine contributes no remote execution. -/
theorem remoteExecFor_skipped (expr : Expr) (opts : Opts) (e : RemoteEngine)
    (h : engineSkipped opts e) : remoteExecFor expr opts e = none := by
  rcases h with h | h
  · simp [remoteExecFor, h]
  · unfold remoteExecFor
    rcases Classical.em (e.maxT < opts.start - opts.lookbackDelta) with h' | h'
    · simp [h']
    · simp [h', h]

/-- Helper: `distributeQuery` over only-skipped engines keeps the
accumulator unchanged. -/
theorem distributeQuery_foldl_skipped (expr : Expr) (opts : Opts) :
    ∀ (engines : List RemoteEngine) (acc : List RemoteExec),
      (∀ e ∈ engines, engineSkipped opts e) →
      engines.foldl (fun acc e =>
        match remoteExecFor expr opts e with
        | none => acc
        | some r => acc ++ [r]) acc = acc := by
  intro engines
  induction engines with
  | nil => intro acc _; rfl
  | cons e rest ih =>
    intro acc h
    have he : remoteExecFor expr opts e = none :=
      remoteExecFor_skipped expr opts e (h e (by simp))
    simp only [List.foldl_cons, he]
    exact ih acc (fun e' h' => h e' (by simp [h']))

/-- C10: if every remote engine is skipped (its window misses the query
range), `distributeQuery` returns a `Deduplicate` with an empty
`Expressions` list, and the Optimize rewrite installs this empty
`Deduplicate` in place of a distributive subtree whose parent is not
distributive; the rewrite is total, so no error is reported. -/
theorem distributeQuery_all_skipped_empty_dedup
    (expr : Expr) (engines : List RemoteEngine) (opts : Opts)
    (hskip : ∀ e ∈ engines, engineSkipped opts e) :
    distributeQuery expr engines opts = [] ∧
    (∀ (parent : Option Expr) (current : Expr),
      isDistributive (some current) = true →
      current.isAggregate = false →
      isDistributive parent = false →
      optimizeNode engines opts parent current = (.dedup [], true)) := by
  have hdq : ∀ ex : Expr, distributeQuery ex engines opts = [] := fun ex =>
    distributeQuery_foldl_skipped ex opts engines [] hskip
  refine ⟨hdq expr, ?_⟩
  intro parent current hdist hagg hpar
  cases current with
  | aggregate op arg param grouping without => simp [Expr.isAggregate] at hagg
  | binary lhs rhs => simp [isDistributive] at hdist
  | call name args => simp [optimizeNode, hdist, hpar, hdq]
  | vectorSel name => simp [optimizeNode, hdist, hpar, hdq]
  | numberLit v => simp [optimizeNode, hdist, hpar, hdq]
  | dedup exprs => simp [optimizeNode, hdist, hpar, hdq]

/-- C10 witness: one engine entirely before the query range (MaxT <
Start − LookbackDelta): the vector selector subtree is replaced by an
empty `Deduplicate`. -/
theorem distributeQuery_all_skipped_empty_dedup_witness :
    (∀ e ∈ [(⟨10, 20, []⟩ : RemoteEngine)], engineSkipped ⟨100, 200, 10, 0⟩ e) ∧
    distributeQuery (.vectorSel "up") [⟨10, 20, []⟩] ⟨100, 200, 10, 0⟩ = [] ∧
    optimizeNode [⟨10, 20, []⟩] ⟨100, 200, 10, 0⟩ none (.vectorSel "up") =
      (.dedup [], true) := by
  have h := distributeQuery_all_skipped_empty_dedup (.vectorSel "up")
    [⟨10, 20, []⟩] ⟨100, 200, 10, 0⟩ (by decide)
  exact ⟨by decide, h.1, h.2 none (.vectorSel "up") (by decide) (by decide) (by decide)⟩

end logicalplan

namespace scan

/-- Error kinds surfaced by the selector operators. -/
inductive Err where
  | canceled
  | storage (code : Nat)
  | iter (code : Nat)
deriving DecidableEq, Repr

/-- Model of a `float64` sample value: an abstract payload plus the
staleness marker; `value.IsStaleNaN v` is `v.stale`. -/
structure FVal where
  val : Int
  stale : Bool
deriving DecidableEq, Repr

/-- A float sample of the plain (vector selector) iterator. -/
structure FSample where
  t : Int
  v : FVal
deriving DecidableEq, Repr

/-- State of `vectorScanner`'s wrapped `chunkenc.Iterator`: the samples not
yet reached, the sample the iterator currently points at (`none` before the
first `Next`, so `pastFirstIteration = curr.isSome`) and the snapshot
`prev` (`hasPrev = prev.isSome`). -/
structure VectorScanner where
  rest : List FSample
  curr : Option FSample
  prev : Option FSample
deriving DecidableEq, Repr

/-- Fresh scanner over a stream (`vectorScanner` created by `loadSeries`). -/
def VectorScanner.init (σ : List FSample) : VectorScanner := ⟨σ, none, none⟩

/-- One snapshot of the current sample into `prev` (the head of the Go
`Seek` loop: only done past the first iteration, i.e. when `curr` is set). -/
def snap (curr prev : Option FSample) : Option FSample :=
  match curr with
  | some c => some c
  | none => prev

/-- The loop of `vectorScanner.Seek`: snapshot, advance, stop at the first
sample with timestamp at least `ts`; returns the Go boolean result and the
final iterator state. -/
def seekLoop (ts : Int) : List FSample → Option FSample → Option FSample →
    Bool × VectorScanner
  | rest, curr, prev =>
    let prev' := snap curr prev
    match rest with
    | [] => (false, ⟨[], curr, prev'⟩)
    | x :: xs =>
      if ts ≤ x.t then (true, ⟨xs, some x, prev'⟩)
      else seekLoop ts xs (some x) prev'

/-- Method wrapper for `vectorScanner.Seek`. -/
def VectorScanner.seek (s : VectorScanner) (ts : Int) : Bool × VectorScanner :=
  seekLoop ts s.rest s.curr s.prev

/-- Fallback to the previous sample with the lookback window check (the
inner block of `vectorScanner.selectPoint`). -/
def fallbackPrev (prev : Option FSample) (refTime lookbackDelta : Int) :
    Option (Int × FVal) :=
  match prev with
  | some p => if p.t < refTime - lookbackDelta then none else some (p.t, p.v)
  | none => none

/-- Final staleness gate of `vectorScanner.selectPoint`: a stale chosen
sample is reported as no sample. -/
def staleGate (chosen : Option (Int × FVal)) : Option (Int × FVal) :=
  match chosen with
  | none => none
  | some (t, v) => if v.stale then none else some (t, v)

/-- The `vectorScanner.selectPoint` method: seek to `ts`, fall back to the
previous sample when the sought one is missing or too new, report no
sample when outside the lookback window or stale. -/
def VectorScanner.selectPoint (s : VectorScanner) (ts lookbackDelta : Int) :
    Option (Int × FVal) × VectorScanner :=
  let refTime := ts
  let r := s.seek refTime
  let s' := r.2
  let chosen : Option (Int × FVal) :=
    match (if r.1 then s'.curr else none) with
    | some c =>
      if c.t > refTime then fallbackPrev s'.prev refTime lookbackDelta
      else some (c.t, c.v)
    | none => fallbackPrev s'.prev refTime lookbackDelta
  (staleGate chosen, s')

/-- Specification-side definition for C6: the most recent sample of the
stream with timestamp at most `ts`. -/
def lastLE (ts : Int) (σ : List FSample) : Option FSample :=
  (σ.filter (fun s => decide (s.t ≤ ts))).getLast?

/-- Last element of a list, defaulting to a given option; mirrors the
`prev` snapshot accumulated along a scan. -/
def lastOr : List FSample → Option FSample → Option FSample
  | [], d => d
  | x :: xs, _ => lastOr xs (some x)

/-- Helper: `lastOr l none` is `l.getLast?`. -/
theorem lastOr_eq_getLast? : ∀ (l : List FSample) (d : Option FSample),
    lastOr l d = match l.getLast? with
      | some y => some y
      | none => d := by
  intro l
  induction l with
  | nil => intro d; rfl
  | cons x xs ih =>
    intro d
    cases xs with
    | nil => rfl
    | cons y ys =>
      rw [lastOr, ih (some x), List.getLast?_cons_cons]
      cases hg : (y :: ys).getLast? with
      | some z => rfl
      | none => simp at hg

/-- Helper: `lastOr` with default `none` is `getLast?`. -/
theorem lastOr_none (l : List FSample) : lastOr l none = l.getLast? := by
  rw [lastOr_eq_getLast?]
  cases l.getLast? <;> rfl

/-- Characterization of the `Seek` loop: it splits the pending samples at
the first timestamp reaching `ts`, pointing `curr` at that sample and
`prev` at the last sample passed over. -/
theorem seekLoop_spec (ts : Int) : ∀ (rest : List FSample) (curr prev : Option FSample),
    seekLoop ts rest curr prev =
      match rest.dropWhile (fun s => decide (s.t < ts)) with
      | x :: xs =>
        (true, ⟨xs, some x, lastOr (rest.takeWhile (fun s => decide (s.t < ts))) (snap curr prev)⟩)
      | [] => (false, ⟨[], lastOr rest curr, lastOr rest (snap curr prev)⟩) := by
  intro rest
  induction rest with
  | nil => intro curr prev; rfl
  | cons y ys ih =>
    intro curr prev
    by_cases hy : y.t < ts
    · have hts : ¬ ts ≤ y.t := by omega
      rw [seekLoop]
      simp only [List.dropWhile_cons, List.takeWhile_cons, decide_eq_true hy, if_neg hts]
      rw [ih (some y) (snap curr prev)]
      have hsnap : snap (some y) (snap curr prev) = some y := rfl
      cases hd : ys.dropWhile (fun s => decide (s.t < ts)) with
      | nil => simp [hsnap, lastOr]
      | cons x xs => simp [hsnap, lastOr]
    · have hts : ts ≤ y.t := by omega
      rw [seekLoop]
      simp [List.dropWhile_cons, List.takeWhile_cons, hy, if_pos hts, lastOr]

/-- Helper: the head surviving `dropWhile` fails the predicate. -/
theorem dropWhile_head_false {α : Type} (p : α → Bool) :
    ∀ (l : List α) (x : α) (xs : List α), l.dropWhile p = x :: xs → p x = false := by
  intro l
  induction l with
  | nil => intro x xs h; simp [List.dropWhile] at h
  | cons y ys ih =>
    intro x xs h
    by_cases hy : p y
    · rw [List.dropWhile_cons, if_pos hy] at h
      exact ih x xs h
    · rw [List.dropWhile_cons, if_neg hy] at h
      cases h
      simpa using hy

/-- Helper: the stale gate composed with the lookback fallback equals the
specification-side case split on the previous sample. -/
theorem staleGate_fallbackPrev (pOpt : Option FSample) (ts lb : Int) :
    staleGate (fallbackPrev pOpt ts lb) =
      match pOpt with
      | none => none
      | some p => if p.t < ts - lb ∨ p.v.stale = true then none
                  else some (p.t, p.v) := by
  cases pOpt with
  | none => rfl
  | some p =>
    by_cases h1 : p.t < ts - lb
    · simp [fallbackPrev, staleGate, h1]
    · cases hstale : p.v.stale <;> simp [fallbackPrev, staleGate, h1, hstale]

/-- C6: on a fresh scanner over a strictly time-sorted stream, with
`lookbackDelta ≥ 0`, `selectPoint ts lookbackDelta` returns the most
recent sample with timestamp at most `ts` and reports no sample exactly
when no such sample exists, when that sample is older than
`ts − lookbackDelta`, or when its value is a stale NaN. -/
theorem selectPoint_most_recent (σ : List FSample) (ts lb : Int)
    (hs : σ.Pairwise (fun a b => a.t < b.t)) (hlb : 0 ≤ lb) :
    ((VectorScanner.init σ).selectPoint ts lb).1 =
      match lastLE ts σ with
      | none => none
      | some s => if s.t < ts - lb ∨ s.v.stale = true then none
                  else some (s.t, s.v) := by
  unfold VectorScanner.selectPoint VectorScanner.seek VectorScanner.init
  simp only
  rw [seekLoop_spec]
  cases hd : σ.dropWhile (fun s => decide (s.t < ts)) with
  | nil =>
    have hall : ∀ s ∈ σ, s.t < ts := by
      intro s hmem
      have := List.dropWhile_eq_nil_iff.mp hd s hmem
      simpa using this
    have hfilter : σ.filter (fun s => decide (s.t ≤ ts)) = σ :=
      List.filter_eq_self.mpr (fun s hmem => decide_eq_true (le_of_lt (hall s hmem)))
    simp only [snap]
    rw [lastOr_none]
    unfold lastLE
    rw [hfilter]
    simpa using staleGate_fallbackPrev σ.getLast? ts lb
  | cons x xs =>
    have hx : ¬ (x.t < ts) := by
      have := dropWhile_head_false _ σ x xs hd
      simpa using this
    have hsplit : σ = σ.takeWhile (fun s => decide (s.t < ts)) ++ x :: xs := by
      conv_lhs => rw [← List.takeWhile_append_dropWhile (fun s => decide (s.t < ts)) σ]
      rw [hd]
    have hlow : ∀ s ∈ σ.takeWhile (fun s => decide (s.t < ts)), s.t < ts := by
      intro s hmem
      simpa using List.mem_takeWhile_imp hmem
    have hfl : (σ.takeWhile (fun s => decide (s.t < ts))).filter
        (fun s => decide (s.t ≤ ts)) = σ.takeWhile (fun s => decide (s.t < ts)) :=
      List.filter_eq_self.mpr (fun s hmem => decide_eq_true (le_of_lt (hlow s hmem)))
    have hpw : (σ.takeWhile (fun s => decide (s.t < ts)) ++ x :: xs).Pairwise
        (fun a b => a.t < b.t) := hsplit ▸ hs
    have hxs : ∀ s ∈ xs, x.t < s.t :=
      (List.pairwise_cons.mp (List.pairwise_append.mp hpw).2.1).1
    have hxsf : xs.filter (fun s => decide (s.t ≤ ts)) = [] := by
      rw [List.filter_eq_nil_iff]
      intro s hmem
      have h1 : x.t < s.t := hxs s hmem
      simp only [decide_eq_true_eq]
      omega
    simp only [snap]
    rw [lastOr_none]
    by_cases hxt : x.t > ts
    · have hxf : (x :: xs).filter (fun s => decide (s.t ≤ ts)) = [] := by
        rw [List.filter_eq_nil_iff]
        intro s hmem
        rcases List.mem_cons.mp hmem with h | h
        · subst h; simp only [decide_eq_true_eq]; omega
        · have h1 : x.t < s.t := hxs s h
          simp only [decide_eq_true_eq]
          omega
      have hlast : lastLE ts σ =
          (σ.takeWhile (fun s => decide (s.t < ts))).getLast? := by
        unfold lastLE
        conv_lhs => rw [hsplit]
        rw [List.filter_append, hxf, hfl, List.append_nil]
      rw [hlast]
      simpa [hxt] using
        staleGate_fallbackPrev (σ.takeWhile (fun s => decide (s.t < ts))).getLast? ts lb
    · have hxeq : x.t = ts := by omega
      have hxf : (x :: xs).filter (fun s => decide (s.t ≤ ts)) = [x] := by
        rw [List.filter_cons, if_pos (decide_eq_true (by omega : x.t ≤ ts)), hxsf]
      have hlast : lastLE ts σ = some x := by
        unfold lastLE
        conv_lhs => rw [hsplit]
        rw [List.filter_append, hxf, hfl, List.getLast?_concat]
      rw [hlast]
      have hwin : ¬ (x.t < ts - lb) := by omega
      cases hstale : x.v.stale <;> simp [staleGate, hxt, hwin, hstale]

/-- C6 witness: a stream with samples at t=0 and t=15000 (value payload 1,
not stale), lookbackDelta 30000, queried at ts=30000, yields the sample at
t=15000 (scenario S1 of the spec). -/
theorem selectPoint_most_recent_witness :
    ((VectorScanner.init [⟨0, ⟨1, false⟩⟩, ⟨15000, ⟨1, false⟩⟩]).selectPoint
        30000 30000).1 = some (15000, ⟨1, false⟩) := by
  have h := selectPoint_most_recent [⟨0, ⟨1, false⟩⟩, ⟨15000, ⟨1, false⟩⟩]
    30000 30000 (by decide) (by decide)
  simpa [lastLE] using h

/-- A sample of the matrix selector's storage iterator: a float (with
staleness flag) or a histogram (payload kept abstract). -/
inductive Sample where
  | float (t : Int) (v : FVal)
  | hist (t : Int) (h : Int)
deriving DecidableEq, Repr

/-- Timestamp of a sample. -/
def Sample.t : Sample → Int
  | .float t _ => t
  | .hist t _ => t

/-- Value of a `promql.Point`: either a float or a histogram, exactly one
of `V`/`H` being populated. -/
inductive PVal where
  | fl (v : FVal)
  | hs (h : Int)
deriving DecidableEq, Repr

/-- A `promql.Point`. -/
structure Point where
  t : Int
  val : PVal
deriving DecidableEq, Repr

/-- Conversion of an iterator sample into the point appended to the
output slice. -/
def toPoint : Sample → Point
  | .float t v => ⟨t, .fl v⟩
  | .hist t h => ⟨t, .hs h⟩

/-- Modelled from the spec: the extended-range function set (the range
variants of rate, increase and delta); the exact set lives in the
`execution/function` package, which is not part of the analyzed sources. -/
def IsExtFunction (name : String) : Bool :=
  name = "xrate" || name = "xincrease" || name = "xdelta" ||
  name = "rate" || name = "increase" || name = "delta"

/-- Modelled from the spec: the `storage.BufferedSeriesIterator` consumed
by `selectPoints` (spec section 6) — a wrapper over a time-sorted stream
retaining a sliding back-window of length `delta` behind the current
position, with an error channel for a failing underlying iterator. -/
structure BufferedIterator where
  stream : List Sample
  delta : Int
  err : Option Err
deriving DecidableEq, Repr

/-- Modelled from the spec: the sample `Seek(maxt)` lands on — the first
sample with timestamp at least `maxt`. -/
def soughtSample (it : BufferedIterator) (maxt : Int) : Option Sample :=
  it.stream.find? (fun s => decide (s.t ≥ maxt))

/-- Modelled from the spec: the back-buffer contents after `Seek(maxt)` —
for a sorted stream, the samples in the back-window `[maxt − delta, maxt)`
strictly before the sought position. -/
def bufferSamples (it : BufferedIterator) (maxt : Int) : List Sample :=
  it.stream.filter (fun s => decide (maxt - it.delta ≤ s.t) && decide (s.t < maxt))

/-- The reuse-prefix block of `selectPoints` (lines 246-276): retain the
overlap of the previous output `out` with the new range, and raise the
effective `mint` past the last retained timestamp.  For extended-range
functions the head is dropped past `mint` and the predecessor is rolled
back when it lies within `extMint`. -/
def retainOverlap (out : List Point) (mint extMint : Int) (extRange : Bool) :
    List Point × Int :=
  match out.getLast? with
  | none => ([], mint)
  | some last =>
    if last.t ≥ mint then
      if extRange = false then
        (out.dropWhile (fun p => decide (p.t < mint)), last.t + 1)
      else
        let dropped := out.takeWhile (fun p => decide (p.t ≤ mint))
        let kept := out.dropWhile (fun p => decide (p.t ≤ mint))
        let kept := match dropped.getLast? with
          | some pr => if pr.t ≥ extMint then pr :: kept else kept
          | none => kept
        if last.t ≥ mint then (kept, last.t + 1) else (kept, mint)
    else ([], mint)

/-- The back-buffer loop of `selectPoints` (lines 287-320): histograms are
kept from `mint` on; stale floats are skipped; non-extended floats are
kept from `mint` on; extended-range floats are appended when past `mint`
or when no pre-`mint` anchor was appended yet, otherwise they replace the
last appended point in place. -/
def scanBuf (mint : Int) (extRange : Bool) :
    List Sample → List Point → Bool → List Point
  | [], out, _ => out
  | .hist t h :: rest, out, app =>
    if t ≥ mint then scanBuf mint extRange rest (out ++ [⟨t, .hs h⟩]) app
    else scanBuf mint extRange rest out app
  | .float t v :: rest, out, app =>
    if v.stale then scanBuf mint extRange rest out app
    else if extRange = false then
      if t ≥ mint then scanBuf mint extRange rest (out ++ [⟨t, .fl v⟩]) app
      else scanBuf mint extRange rest out app
    else
      if t > mint || !app then scanBuf mint extRange rest (out ++ [⟨t, .fl v⟩]) true
      else scanBuf mint extRange rest (out.dropLast ++ [⟨t, .fl v⟩]) app

/-- The sought-sample block of `selectPoints` (lines 322-334): the sample
found by `Seek` is appended when it sits exactly at `maxt` (stale floats
excluded). -/
def appendSought (out : List Point) (sought : Option Sample) (maxt : Int) :
    List Point :=
  match sought with
  | some (.hist t h) => if t = maxt then out ++ [⟨t, .hs h⟩] else out
  | some (.float t v) =>
    if t = maxt && !v.stale then out ++ [⟨t, .fl v⟩] else out
  | none => out

/-- The `selectPoints` function of the matrix selector: retain the reusable
prefix of the previous output, seek to `maxt` (surfacing an iterator error
when the seek finds nothing), scan the back-buffer and append the sought
sample. -/
def selectPoints (it : BufferedIterator) (mint maxt : Int) (out : List Point)
    (functionName : String) (extLookbackDelta : Int) : Except Err (List Point) :=
  let extRange := IsExtFunction functionName
  let extMint := mint - extLookbackDelta
  let r := retainOverlap out mint extMint extRange
  let sought := soughtSample it maxt
  match sought, it.err with
  | none, some e => .error e
  | _, _ =>
    let app := decide (r.1 ≠ [])
    .ok (appendSought (scanBuf r.2 extRange (bufferSamples it maxt) r.1 app)
      sought maxt)

/-- A point list free of stale floats (C9's invariant). -/
def staleFreeP (l : List Point) : Prop :=
  ∀ p ∈ l, ∀ v : FVal, p.val = .fl v → v.stale = false

/-- Helper: stale-freedom restricts along sublists. -/
theorem staleFreeP_sublist {l₁ l₂ : List Point} (hsub : l₁.Sublist l₂)
    (h : staleFreeP l₂) : staleFreeP l₁ :=
  fun p hp v hv => h p (hsub.mem hp) v hv

/-- Helper: appending a non-stale point preserves stale-freedom. -/
theorem staleFreeP_push {l : List Point} (h : staleFreeP l) (q : Point)
    (hq : ∀ v : FVal, q.val = .fl v → v.stale = false) :
    staleFreeP (l ++ [q]) := by
  intro p hp v hv
  rcases List.mem_append.mp hp with h1 | h1
  · exact h p h1 v hv
  · exact hq v (List.mem_singleton.mp h1 ▸ hv)

/-- Helper: the retained reuse prefix only contains points of the previous
output. -/
theorem retainOverlap_staleFree (out : List Point) (mint extMint : Int)
    (extRange : Bool) (h : staleFreeP out) :
    staleFreeP (retainOverlap out mint extMint extRange).1 := by
  unfold retainOverlap
  cases hgl : out.getLast? with
  | none => intro p hp; simp at hp
  | some last =>
    by_cases h1 : last.t ≥ mint
    · cases extRange with
      | false =>
        simp only [h1, if_true]
        exact staleFreeP_sublist (List.dropWhile_sublist _) h
      | true =>
        simp only [h1, if_true]
        have hkept : staleFreeP (out.dropWhile (fun p => decide (p.t ≤ mint))) :=
          staleFreeP_sublist (List.dropWhile_sublist _) h
        cases hpr : (out.takeWhile (fun p => decide (p.t ≤ mint))).getLast? with
        | none => simpa using hkept
        | some pr =>
          have hprout : pr ∈ out :=
            (List.takeWhile_sublist _).mem (List.mem_of_mem_getLast? hpr)
          by_cases h2 : pr.t ≥ extMint
          · simp only [h2, if_true]
            intro p hp v hv
            rcases List.mem_cons.mp hp with h3 | h3
            · exact h pr (h3 ▸ hprout) v (h3 ▸ hv)
            · exact hkept p h3 v hv
          · simp only [h2]
            simpa using hkept
    · simp only [h1, if_false]
      intro p hp; simp at hp

/-- Helper: the back-buffer loop never appends a stale float. -/
theorem scanBuf_staleFree (mint : Int) (extRange : Bool) :
    ∀ (l : List Sample) (out : List Point) (app : Bool),
      staleFreeP out → staleFreeP (scanBuf mint extRange l out app) := by
  intro l
  induction l with
  | nil => intro out app h; exact h
  | cons s rest ih =>
    intro out app h
    cases s with
    | hist t hv =>
      rw [scanBuf]
      by_cases h1 : t ≥ mint
      · simp only [h1, if_true]
        exact ih _ _ (staleFreeP_push h ⟨t, .hs hv⟩ (fun v hv' => by simp at hv'))
      · simp only [h1, if_false]
        exact ih _ _ h
    | float t v =>
      rw [scanBuf]
      by_cases h1 : v.stale
      · simp only [h1, if_true]
        exact ih _ _ h
      · have hpush : staleFreeP (out ++ [⟨t, .fl v⟩]) :=
          staleFreeP_push h ⟨t, .fl v⟩ (fun v' hv' => by
            simp only [PVal.fl.injEq] at hv'
            rw [← hv']
            simpa using h1)
        simp only [h1, if_false]
        cases extRange with
        | false =>
          by_cases h2 : t ≥ mint
          · simp only [h2, if_true]
            exact ih _ _ hpush
          · simp only [h2, if_false]
            exact ih _ _ h
        | true =>
          by_cases h2 : (decide (t > mint) || !app) = true
          · simp only [h2, if_true]
            exact ih _ _ hpush
          · simp only [h2, if_false]
            refine ih _ _ ?_
            refine staleFreeP_push (staleFreeP_sublist (List.dropLast_sublist _) h)
              ⟨t, .fl v⟩ (fun v' hv' => by
                simp only [PVal.fl.injEq] at hv'
                rw [← hv']
                simpa using h1)

/-- Helper: appending the sought sample never adds a stale float. -/
theorem appendSought_staleFree (out : List Point) (sought : Option Sample)
    (maxt : Int) (h : staleFreeP out) :
    staleFreeP (appendSought out sought maxt) := by
  cases sought with
  | none => exact h
  | some s =>
    cases s with
    | hist t hv =>
      unfold appendSought
      by_cases h1 : t = maxt
      · simp only [h1, if_true]
        exact staleFreeP_push h ⟨maxt, .hs hv⟩ (fun v hv' => by simp at hv')
      · simp only [h1, if_false]
        exact h
    | float t v =>
      unfold appendSought
      by_cases h1 : (decide (t = maxt) && !v.stale) = true
      · simp only [h1, if_true]
        refine staleFreeP_push h ⟨t, .fl v⟩ (fun v' hv' => by
          simp only [PVal.fl.injEq] at hv'
          rw [← hv']
          simp only [Bool.and_eq_true, Bool.not_eq_true'] at h1
          exact h1.2)
      · simp only [h1, if_false]
        exact h

/-- C9: for every iterator state, window and function, if the reused
previous output contains no stale float then the point list produced by
`selectPoints` contains no stale float either: stale floats are skipped in
the back-buffer scan and the stale sought sample at `maxt` is excluded. -/
theorem selectPoints_stale_free (it : BufferedIterator) (mint maxt : Int)
    (out : List Point) (f : String) (ext : Int) (ps : List Point)
    (hout : staleFreeP out)
    (hok : selectPoints it mint maxt out f ext = .ok ps) :
    staleFreeP ps := by
  unfold selectPoints at hok
  have hbase : staleFreeP (appendSought
      (scanBuf (retainOverlap out mint (mint - ext) (IsExtFunction f)).2
        (IsExtFunction f) (bufferSamples it maxt)
        (retainOverlap out mint (mint - ext) (IsExtFunction f)).1
        (decide ((retainOverlap out mint (mint - ext) (IsExtFunction f)).1 ≠ [])))
      (soughtSample it maxt) maxt) := by
    refine appendSought_staleFree _ _ _ ?_
    refine scanBuf_staleFree _ _ _ _ _ ?_
    exact retainOverlap_staleFree out mint (mint - ext) (IsExtFunction f) hout
  revert hok
  cases h1 : soughtSample it maxt with
  | none =>
    cases h2 : it.err with
    | none =>
      intro hok
      simp only [h1, h2] at hok
      cases hok
      simpa [h1] using hbase
    | some e =>
      intro hok
      simp only [h1, h2] at hok
      cases hok
  | some s =>
    intro hok
    simp only [h1] at hok
    cases hok
    simpa [h1] using hbase

/-- C9 witness: a stream with a stale float inside the window and a stale
float at exactly `maxt` produces a point list without either of them. -/
theorem selectPoints_stale_free_witness :
    staleFreeP [] ∧
    selectPoints ⟨[.float 1 ⟨5, true⟩, .float 2 ⟨6, false⟩, .float 10 ⟨7, true⟩],
        10, none⟩ 0 10 [] "sum_over_time" 0 =
      .ok [⟨2, .fl ⟨6, false⟩⟩] ∧
    staleFreeP [⟨2, .fl ⟨6, false⟩⟩] := by
  refine ⟨fun p hp => by simp at hp, by rfl, ?_⟩
  exact selectPoints_stale_free ⟨[.float 1 ⟨5, true⟩, .float 2 ⟨6, false⟩,
      .float 10 ⟨7, true⟩], 10, none⟩ 0 10 [] "sum_over_time" 0
    [⟨2, .fl ⟨6, false⟩⟩] (fun p hp => by simp at hp) (by rfl)

/-- C1: buffered reuse is not observationally equivalent to stateless
evaluation for extended-range functions.  Over the float stream at
timestamps 0, 10, 11, 14 with range 10, step 4 and extLookbackDelta 5, the
first window [0,10] produces [0,10]; reusing that output for window [4,14]
yields [0,11,14] — the in-range point at t=10 is overwritten — while a
fresh evaluation of [4,14] yields [0,10,11,14]. -/
theorem selectPoints_ext_reuse_differs_from_fresh :
    selectPoints ⟨[.float 0 ⟨1, false⟩, .float 10 ⟨2, false⟩,
        .float 11 ⟨3, false⟩, .float 14 ⟨4, false⟩], 15, none⟩ 0 10 [] "xrate" 5 =
      .ok [⟨0, .fl ⟨1, false⟩⟩, ⟨10, .fl ⟨2, false⟩⟩] ∧
    selectPoints ⟨[.float 0 ⟨1, false⟩, .float 10 ⟨2, false⟩,
        .float 11 ⟨3, false⟩, .float 14 ⟨4, false⟩], 15, none⟩ 4 14
        [⟨0, .fl ⟨1, false⟩⟩, ⟨10, .fl ⟨2, false⟩⟩] "xrate" 5 =
      .ok [⟨0, .fl ⟨1, false⟩⟩, ⟨11, .fl ⟨3, false⟩⟩, ⟨14, .fl ⟨4, false⟩⟩] ∧
    selectPoints ⟨[.float 0 ⟨1, false⟩, .float 10 ⟨2, false⟩,
        .float 11 ⟨3, false⟩, .float 14 ⟨4, false⟩], 15, none⟩ 4 14
        [] "xrate" 5 =
      .ok [⟨0, .fl ⟨1, false⟩⟩, ⟨10, .fl ⟨2, false⟩⟩, ⟨11, .fl ⟨3, false⟩⟩,
        ⟨14, .fl ⟨4, false⟩⟩] ∧
    ([⟨0, .fl ⟨1, false⟩⟩, ⟨11, .fl ⟨3, false⟩⟩, ⟨14, .fl ⟨4, false⟩⟩] :
      List Point) ≠
      [⟨0, .fl ⟨1, false⟩⟩, ⟨10, .fl ⟨2, false⟩⟩, ⟨11, .fl ⟨3, false⟩⟩,
        ⟨14, .fl ⟨4, false⟩⟩] :=
  ⟨by rfl, by rfl, by rfl, by decide⟩

/-- Specification-side predicate: a non-stale float sample at or before
`mint` (an anchor candidate of the extended-range scan). -/
def validFloatLE (mint : Int) : Sample → Bool
  | .float t v => !v.stale && decide (t ≤ mint)
  | .hist _ _ => false

/-- Specification-side predicate: samples kept by the extended-range
buffer loop besides the anchor — histograms from `mint` on and non-stale
floats strictly past `mint`. -/
def keepLoop (mint : Int) : Sample → Bool
  | .float t v => !v.stale && decide (t > mint)
  | .hist t _ => decide (t ≥ mint)

/-- Specification-side predicate: the non-anchor window content of an
extended-range evaluation below `maxt`. -/
def keepExt (mint maxt : Int) : Sample → Bool
  | .float t v => decide (t < maxt) && (!v.stale && decide (t > mint))
  | .hist t _ => decide (t < maxt) && decide (t ≥ mint)

/-- Specification-side definition: the anchor — the latest non-stale float
sample with timestamp in `[extMint, mint]`. -/
def anchorSample (σ : List Sample) (mint extMint : Int) : Option Sample :=
  (σ.filter (fun s => validFloatLE mint s && decide (extMint ≤ s.t))).getLast?

/-- Helper: `getLast?` of a cons in terms of the tail. -/
theorem getLast?_cons_eq {α : Type} (x : α) (l : List α) :
    (x :: l).getLast? = match l.getLast? with
      | some y => some y
      | none => some x := by
  cases l with
  | nil => rfl
  | cons y ys =>
    rw [List.getLast?_cons_cons]
    cases hg : (y :: ys).getLast? with
    | some z => rfl
    | none => simp at hg

/-- Helper: once the extended-range loop runs over samples among which no
anchor candidate remains, it appends exactly the kept samples. -/
theorem scanBuf_ext_no_candidates (mint : Int) :
    ∀ (l : List Sample) (out : List Point) (app : Bool),
      (∀ s ∈ l, validFloatLE mint s = false) →
      scanBuf mint true l out app =
        out ++ (l.filter (keepLoop mint)).map toPoint := by
  intro l
  induction l with
  | nil => intro out app _; simp [scanBuf]
  | cons s rest ih =>
    intro out app hnc
    have hrest : ∀ s' ∈ rest, validFloatLE mint s' = false :=
      fun s' h' => hnc s' (List.mem_cons_of_mem _ h')
    cases s with
    | hist t hv =>
      rw [scanBuf]
      by_cases h1 : t ≥ mint
      · rw [if_pos h1, ih _ _ hrest]
        simp [keepLoop, h1, List.filter_cons, toPoint]
      · rw [if_neg h1, ih _ _ hrest]
        simp [keepLoop, h1, List.filter_cons]
    | float t v =>
      rw [scanBuf]
      by_cases h1 : v.stale
      · rw [if_pos h1, ih _ _ hrest]
        have hkl : keepLoop mint (.float t v) = false := by simp [keepLoop, h1]
        simp [List.filter_cons, hkl]
      · have hvf : validFloatLE mint (.float t v) = false := hnc _ (by simp)
        have ht : mint < t := by
          simp only [validFloatLE, h1, Bool.not_false, Bool.true_and,
            decide_eq_false_iff_not] at hvf
          omega

        rw [if_neg h1]
        have hcond : (decide (t > mint) || !app) = true := by
          simp [ht]
        simp only [show (true = false) = False from by simp, if_false]
        rw [if_pos hcond, ih _ _ hrest]
        have hkl : keepLoop mint (.float t v) = true := by
          simp [keepLoop, h1, ht]
        simp [List.filter_cons, hkl, toPoint]

/-- Helper: the extended-range loop in the anchor phase — the output so far
is a single anchor candidate and later candidates replace it in place. -/
theorem scanBuf_ext_anchor_phase (mint : Int) :
    ∀ (l : List Sample) (af : Sample),
      l.Pairwise (fun a b => a.t < b.t) →
      validFloatLE mint af = true →
      scanBuf mint true l [toPoint af] true =
        match (l.filter (validFloatLE mint)).getLast? with
        | some a' => toPoint a' :: (l.filter (keepLoop mint)).map toPoint
        | none => toPoint af :: (l.filter (keepLoop mint)).map toPoint := by
  intro l
  induction l with
  | nil => intro af _ _; simp [scanBuf]
  | cons s rest ih =>
    intro af hs haf
    have hgt : ∀ s' ∈ rest, s.t < s'.t := (List.pairwise_cons.mp hs).1
    have hsrest : rest.Pairwise (fun a b => a.t < b.t) := (List.pairwise_cons.mp hs).2
    cases s with
    | hist t hv =>
      rw [scanBuf]
      by_cases h1 : t ≥ mint
      · rw [if_pos h1]
        have hnc : ∀ s' ∈ rest, validFloatLE mint s' = false := by
          intro s' h'
          have hlt : t < s'.t := hgt s' h'
          cases s' with
          | hist _ _ => rfl
          | float t' v' =>
            have : ¬ (t' ≤ mint) := by simp [Sample.t] at hlt; omega
            simp [validFloatLE, this]
        rw [scanBuf_ext_no_candidates mint rest _ _ hnc]
        have hfv : (Sample.hist t hv :: rest).filter (validFloatLE mint) = [] := by
          rw [List.filter_eq_nil_iff]
          intro s' h'
          rcases List.mem_cons.mp h' with h2 | h2
          · subst h2; simp [validFloatLE]
          · simp [hnc s' h2]
        rw [hfv]
        have hkl : keepLoop mint (.hist t hv) = true := by simp [keepLoop, h1]
        simp [List.filter_cons, hkl, toPoint]
      · rw [if_neg h1]
        rw [ih af hsrest haf]
        have hvf : validFloatLE mint (.hist t hv) = false := rfl
        have hkl : keepLoop mint (.hist t hv) = false := by simp [keepLoop, h1]
        simp [List.filter_cons, hvf, hkl]
    | float t v =>
      rw [scanBuf]
      by_cases h1 : v.stale
      · rw [if_pos h1, ih af hsrest haf]
        have hvf : validFloatLE mint (.float t v) = false := by simp [validFloatLE, h1]
        have hkl : keepLoop mint (.float t v) = false := by simp [keepLoop, h1]
        simp [List.filter_cons, hvf, hkl]
      · rw [if_neg h1]
        simp only [show (true = false) = False from by simp, if_false]
        by_cases h2 : t ≤ mint
        · rw [if_neg (by simp; omega : ¬ ((decide (t > mint) || !true) = true))]
          have hdl : ([toPoint af].dropLast ++ [(⟨t, .fl v⟩ : Point)]) =
              [toPoint (.float t v)] := by simp [toPoint]
          rw [hdl]
          have hvf : validFloatLE mint (.float t v) = true := by
            simp [validFloatLE, h1, h2]
          rw [ih (.float t v) hsrest hvf]
          have hkl : keepLoop mint (.float t v) = false := by
            simp [keepLoop]; omega
          rw [List.filter_cons, if_pos hvf, List.filter_cons,
            if_neg (by simp [hkl] : ¬ (keepLoop mint (.float t v) = true))]
          rw [getLast?_cons_eq]
          cases hgl : (rest.filter (validFloatLE mint)).getLast? with
          | some a' => rfl
          | none => rfl
        · have hcond : (decide (t > mint) || !true) = true := by simp; omega
          rw [if_pos hcond]
          have hnc : ∀ s' ∈ rest, validFloatLE mint s' = false := by
            intro s' h'
            have hlt : t < s'.t := hgt s' h'
            cases s' with
            | hist _ _ => rfl
            | float t' v' =>
              have : ¬ (t' ≤ mint) := by simp [Sample.t] at hlt; omega
              simp [validFloatLE, this]
          rw [scanBuf_ext_no_candidates mint rest _ _ hnc]
          have hfv : (Sample.float t v :: rest).filter (validFloatLE mint) = [] := by
            rw [List.filter_eq_nil_iff]
            intro s' h'
            rcases List.mem_cons.mp h' with h3 | h3
            · subst h3; simp [validFloatLE, h2]
            · simp [hnc s' h3]
          rw [hfv]
          have hkl : keepLoop mint (.float t v) = true := by
            simp [keepLoop, h1]; omega
          simp [List.filter_cons, hkl, toPoint]

/-- Helper: full characterization of the extended-range buffer loop from
the empty output: an optional anchor (the latest valid float at or before
`mint`) followed by the kept samples. -/
theorem scanBuf_ext_initial (mint : Int) :
    ∀ (l : List Sample),
      l.Pairwise (fun a b => a.t < b.t) →
      scanBuf mint true l [] false =
        match (l.filter (validFloatLE mint)).getLast? with
        | some a => toPoint a :: (l.filter (keepLoop mint)).map toPoint
        | none => (l.filter (keepLoop mint)).map toPoint := by
  intro l
  induction l with
  | nil => intro _; simp [scanBuf]
  | cons s rest ih =>
    intro hs
    have hgt : ∀ s' ∈ rest, s.t < s'.t := (List.pairwise_cons.mp hs).1
    have hsrest : rest.Pairwise (fun a b => a.t < b.t) := (List.pairwise_cons.mp hs).2
    cases s with
    | hist t hv =>
      rw [scanBuf]
      by_cases h1 : t ≥ mint
      · rw [if_pos h1]
        have hnc : ∀ s' ∈ rest, validFloatLE mint s' = false := by
          intro s' h'
          have hlt : t < s'.t := hgt s' h'
          cases s' with
          | hist _ _ => rfl
          | float t' v' =>
            have : ¬ (t' ≤ mint) := by simp [Sample.t] at hlt; omega
            simp [validFloatLE, this]
        rw [scanBuf_ext_no_candidates mint rest _ _ hnc]
        have hfv : (Sample.hist t hv :: rest).filter (validFloatLE mint) = [] := by
          rw [List.filter_eq_nil_iff]
          intro s' h'
          rcases List.mem_cons.mp h' with h2 | h2
          · subst h2; simp [validFloatLE]
          · simp [hnc s' h2]
        rw [hfv]
        have hkl : keepLoop mint (.hist t hv) = true := by simp [keepLoop, h1]
        simp [List.filter_cons, hkl, toPoint]
      · rw [if_neg h1, ih hsrest]
        have hvf : validFloatLE mint (.hist t hv) = false := rfl
        have hkl : keepLoop mint (.hist t hv) = false := by simp [keepLoop, h1]
        simp [List.filter_cons, hvf, hkl]
    | float t v =>
      rw [scanBuf]
      by_cases h1 : v.stale
      · rw [if_pos h1, ih hsrest]
        have hvf : validFloatLE mint (.float t v) = false := by simp [validFloatLE, h1]
        have hkl : keepLoop mint (.float t v) = false := by simp [keepLoop, h1]
        simp [List.filter_cons, hvf, hkl]
      · rw [if_neg h1]
        simp only [show (true = false) = False from by simp, if_false]
        have hcond : (decide (t > mint) || !false) = true := by simp
        rw [if_pos hcond]
        have hout : (([] : List Point) ++ [(⟨t, .fl v⟩ : Point)]) =
            [toPoint (.float t v)] := by simp [toPoint]
        rw [hout]
        by_cases h2 : t ≤ mint
        · have hvf : validFloatLE mint (.float t v) = true := by
            simp [validFloatLE, h1, h2]
          rw [scanBuf_ext_anchor_phase mint rest (.float t v) hsrest hvf]
          have hkl : keepLoop mint (.float t v) = false := by
            simp [keepLoop]; omega
          rw [List.filter_cons, if_pos hvf, List.filter_cons,
            if_neg (by simp [hkl] : ¬ (keepLoop mint (.float t v) = true))]
          rw [getLast?_cons_eq]
          cases hgl : (rest.filter (validFloatLE mint)).getLast? with
          | some a' => rfl
          | none => rfl
        · have hnc : ∀ s' ∈ rest, validFloatLE mint s' = false := by
            intro s' h'
            have hlt : t < s'.t := hgt s' h'
            cases s' with
            | hist _ _ => rfl
            | float t' v' =>
              have : ¬ (t' ≤ mint) := by simp [Sample.t] at hlt; omega
              simp [validFloatLE, this]
          rw [scanBuf_ext_no_candidates mint rest _ _ hnc]
          have hfv : (Sample.float t v :: rest).filter (validFloatLE mint) = [] := by
            rw [List.filter_eq_nil_iff]
            intro s' h'
            rcases List.mem_cons.mp h' with h3 | h3
            · subst h3; simp [validFloatLE, h2]
            · simp [hnc s' h3]
          rw [hfv]
          have hkl : keepLoop mint (.float t v) = true := by
            simp [keepLoop, h1]; omega
          simp [List.filter_cons, hkl, toPoint]

/-- Helper: `appendSought` appends to the existing output. -/
theorem appendSought_append (out : List Point) (sought : Option Sample)
    (maxt : Int) :
    appendSought out sought maxt = out ++ appendSought [] sought maxt := by
  cases sought with
  | none => simp [appendSought]
  | some s =>
    cases s with
    | float t v =>
      unfold appendSought
      by_cases h : (decide (t = maxt) && !v.stale) = true
      · simp [h]
      · simp [h]
    | hist t hv =>
      unfold appendSought
      by_cases h : t = maxt
      · simp [h]
      · simp [h]

/-- C5 counterexample: with the extended function `xrate`, window
[minT, maxT] = [4, 10], extLookbackDelta 5 and the stream
float@2, histogram@4, float@6 (a non-stale float, namely the one at t=2,
lies in [minT − extLookbackDelta, minT] = [−1, 4]), the returned point
list contains two points with timestamp ≤ minT (the float anchor at t=2
and the histogram at exactly t=4), refuting "exactly one point with
timestamp ≤ minT". -/
theorem selectPoints_ext_hist_at_mint :
    IsExtFunction "xrate" = true ∧
    ([Sample.float 2 ⟨1, false⟩, .hist 4 7, .float 6 ⟨2, false⟩].filter
      (fun s => validFloatLE 4 s && decide ((4 : Int) - 5 ≤ s.t)) ≠ []) ∧
    selectPoints ⟨[.float 2 ⟨1, false⟩, .hist 4 7, .float 6 ⟨2, false⟩],
        10 - 4 + 5, none⟩ 4 10 [] "xrate" 5 =
      .ok [⟨2, .fl ⟨1, false⟩⟩, ⟨4, .hs 7⟩, ⟨6, .fl ⟨2, false⟩⟩] ∧
    (([⟨2, .fl ⟨1, false⟩⟩, ⟨4, .hs 7⟩, ⟨6, .fl ⟨2, false⟩⟩] : List Point).filter
      (fun p => decide (p.t ≤ 4))).length = 2 :=
  ⟨rfl, by decide, by rfl, by decide⟩

/-- C5 (amended): for an extended-range function over a strictly
time-sorted stream, window `minT < maxT`, `extLookbackDelta ≥ 0` and the
iterator back-window `R + extLookbackDelta` built by `loadSeries`, when at
least one non-stale float sample has timestamp in
`[minT − extLookbackDelta, minT]`, the fresh point list of `selectPoints`
is: exactly one float anchor — the latest such sample — followed by the
kept in-window samples (non-stale floats strictly past `minT`, histograms
from `minT` on, hence possibly one histogram at exactly `minT`) and the
sought sample at `maxT`; samples before `minT − extLookbackDelta` never
contribute the anchor, which lies in the anchor window by construction. -/
theorem selectPoints_ext_anchor (σ : List Sample) (mint maxt ext : Int)
    (f : String)
    (hs : σ.Pairwise (fun a b => a.t < b.t)) (hf : IsExtFunction f = true)
    (hR : mint < maxt) (hext : 0 ≤ ext)
    (hex : σ.filter (fun s => validFloatLE mint s && decide (mint - ext ≤ s.t)) ≠ []) :
    ∃ a, anchorSample σ mint (mint - ext) = some a ∧
      selectPoints ⟨σ, maxt - mint + ext, none⟩ mint maxt [] f ext =
        .ok (toPoint a :: ((σ.filter (keepExt mint maxt)).map toPoint ++
          appendSought [] (soughtSample ⟨σ, maxt - mint + ext, none⟩ maxt) maxt)) := by
  have hbufeq : bufferSamples ⟨σ, maxt - mint + ext, none⟩ maxt =
      σ.filter (fun s => decide (mint - ext ≤ s.t) && decide (s.t < maxt)) := by
    show σ.filter (fun s => decide (maxt - (maxt - mint + ext) ≤ s.t) &&
      decide (s.t < maxt)) = _
    refine List.filter_congr ?_
    intro s _
    have harith : maxt - (maxt - mint + ext) = mint - ext := by ring
    rw [harith]
  have hanch : (σ.filter (fun s => decide (mint - ext ≤ s.t) &&
      decide (s.t < maxt))).filter (validFloatLE mint) =
      σ.filter (fun s => validFloatLE mint s && decide (mint - ext ≤ s.t)) := by
    rw [List.filter_filter]
    refine List.filter_congr ?_
    intro s _
    cases s with
    | hist t hv => simp [validFloatLE]
    | float t v =>
      by_cases hst : v.stale
      · simp [validFloatLE, hst]
      · by_cases hle : t ≤ mint
        · have hlt : t < maxt := by omega
          simp [validFloatLE, Sample.t, hst, hle, hlt]
        · simp [validFloatLE, Sample.t, hst, hle]
  have hkeep : (σ.filter (fun s => decide (mint - ext ≤ s.t) &&
      decide (s.t < maxt))).filter (keepLoop mint) =
      σ.filter (keepExt mint maxt) := by
    rw [List.filter_filter]
    refine List.filter_congr ?_
    intro s _
    cases s with
    | hist t hv =>
      by_cases h1 : t ≥ mint
      · have h2 : mint - ext ≤ t := by omega
        by_cases h3 : t < maxt
        · simp [keepLoop, keepExt, Sample.t, h1, h2, h3]
        · simp [keepLoop, keepExt, Sample.t, h1, h2, h3]
      · simp [keepLoop, keepExt, Sample.t, h1]
    | float t v =>
      by_cases hst : v.stale
      · simp [keepLoop, keepExt, hst]
      · by_cases h1 : t > mint
        · have h2 : mint - ext ≤ t := by omega
          by_cases h3 : t < maxt
          · simp [keepLoop, keepExt, Sample.t, hst, h1, h2, h3]
          · simp [keepLoop, keepExt, Sample.t, hst, h1, h2, h3]
        · simp [keepLoop, keepExt, Sample.t, hst, h1]
  obtain ⟨a, ha⟩ : ∃ a, (σ.filter (fun s => validFloatLE mint s &&
      decide (mint - ext ≤ s.t))).getLast? = some a := by
    cases hgl : (σ.filter (fun s => validFloatLE mint s &&
        decide (mint - ext ≤ s.t))).getLast? with
    | none => exact absurd (List.getLast?_eq_none_iff.mp hgl) hex
    | some a => exact ⟨a, rfl⟩
  refine ⟨a, ?_, ?_⟩
  · unfold anchorSample
    exact ha
  · unfold selectPoints
    cases hsought : soughtSample ⟨σ, maxt - mint + ext, none⟩ maxt with
    | none =>
      simp only [hf]
      have hro : retainOverlap [] mint (mint - ext) true = ([], mint) := rfl
      rw [hro]
      have happ : (decide (([] : List Point) ≠ [])) = false := by decide
      rw [happ]
      rw [hbufeq, scanBuf_ext_initial mint _ (hs.filter _), hanch, ha]
      rw [hkeep, appendSought_append]
      simp
    | some s =>
      simp only [hf]
      have hro : retainOverlap [] mint (mint - ext) true = ([], mint) := rfl
      rw [hro]
      have happ : (decide (([] : List Point) ≠ [])) = false := by decide
      rw [happ]
      rw [hbufeq, scanBuf_ext_initial mint _ (hs.filter _), hanch, ha]
      rw [hkeep, appendSought_append]
      simp

/-- C5 witness: scenario S3 in miniature — a float anchor at t=0 (value
payload 100) within the lookback window and an in-range float at t=6:
the amended anchor characterization applies. -/
theorem selectPoints_ext_anchor_witness :
    ∃ a, anchorSample [Sample.float 0 ⟨100, false⟩, .float 6 ⟨110, false⟩]
        5 (5 - 5) = some a ∧
      selectPoints ⟨[Sample.float 0 ⟨100, false⟩, .float 6 ⟨110, false⟩],
          10 - 5 + 5, none⟩ 5 10 [] "xrate" 5 =
        .ok (toPoint a ::
          ((([Sample.float 0 ⟨100, false⟩, .float 6 ⟨110, false⟩].filter
            (keepExt 5 10)).map toPoint) ++
          appendSought []
            (soughtSample ⟨[Sample.float 0 ⟨100, false⟩, .float 6 ⟨110, false⟩],
              10 - 5 + 5, none⟩ 10) 10)) :=
  selectPoints_ext_anchor [Sample.float 0 ⟨100, false⟩, .float 6 ⟨110, false⟩]
    5 10 5 "xrate" (by decide) (by decide) (by decide) (by decide) (by decide)

/-- A step vector (`model.StepVector`): one evaluation timestamp with the
parallel (signature, value) arrays for floats and histograms. -/
structure StepVector where
  t : Int
  sampleIds : List Nat
  samples : List FVal
  histIds : List Nat
  hists : List Int
deriving DecidableEq, Repr

/-- In-place update of a slice element (`vectors[currStep] = ...`). -/
def modifyIdx {α : Type} (f : α → α) : List α → Nat → List α
  | [], _ => []
  | x :: xs, 0 => f x :: xs
  | x :: xs, i + 1 => x :: modifyIdx f xs i

/-- One series returned by the vector selector's storage
(`seriesSelector.getSeries`). -/
structure VectorSeriesInput where
  signature : Nat
  samples : List FSample
deriving DecidableEq, Repr

/-- Per-series scanner of the vector selector with its signature. -/
structure VScanner where
  signature : Nat
  sc : VectorScanner
deriving DecidableEq, Repr

/-- State of the `vectorSelector` operator.  `onceDone` models the
`sync.Once` latch; `storageSeries` is the (fixed) outcome the storage
returns on `getSeries`. -/
structure VectorSelState where
  onceDone : Bool
  storageSeries : Except Err (List VectorSeriesInput)
  scanners : List VScanner
  series : List Nat
  mint : Int
  maxt : Int
  step : Int
  currentStep : Int
  stepsBatch : Int
  lookbackDelta : Int
deriving Repr

/-- The `vectorSelector.loadSeries` method: the `sync.Once` body runs only
on the first call; its error is returned only by the call that ran it. -/
def loadSeriesV (st : VectorSelState) : VectorSelState × Option Err :=
  if st.onceDone then (st, none)
  else
    match st.storageSeries with
    | .error e => ({ st with onceDone := true }, some e)
    | .ok series =>
      ({ st with
          onceDone := true
          scanners := series.map (fun s =>
            ⟨s.signature, VectorScanner.init s.samples⟩)
          series := series.map (fun s => s.signature) }, none)

/-- Inner step loop of `vectorSelector.Next` for one scanner: emit up to
`fuel` steps starting at `seriesTs`, creating the step vector on first
visit and appending the selected sample under the series signature. -/
def vectorScanSteps (lb step maxt : Int) (sig : Nat) :
    Nat → Int → Nat → VectorScanner → List StepVector →
    List StepVector × VectorScanner
  | 0, _, _, sc, vectors => (vectors, sc)
  | fuel + 1, seriesTs, currStep, sc, vectors =>
    if seriesTs > maxt then (vectors, sc)
    else
      let vectors := if vectors.length ≤ currStep then
        vectors ++ [⟨seriesTs, [], [], [], []⟩] else vectors
      let r := sc.selectPoint seriesTs lb
      let vectors := match r.1 with
        | some (_, v) => modifyIdx (fun sv =>
            { sv with
                sampleIds := sv.sampleIds ++ [sig]
                samples := sv.samples ++ [v] }) vectors currStep
        | none => vectors
      vectorScanSteps lb step maxt sig fuel (seriesTs + step) (currStep + 1)
        r.2 vectors

/-- Outer loop of `vectorSelector.Next` over the scanners. -/
def vectorOuter (lb step maxt : Int) (numSteps : Nat) (ts : Int) :
    List VScanner → List StepVector → List StepVector × List VScanner
  | [], vectors => (vectors, [])
  | sc :: rest, vectors =>
    let r := vectorScanSteps lb step maxt sc.signature numSteps ts 0 sc.sc vectors
    let r2 := vectorOuter lb step maxt numSteps ts rest r.1
    (r2.1, ⟨sc.signature, r.2⟩ :: r2.2)

/-- The `vectorSelector.Next` method.  The source performs no context
check; the `ctx` argument only reaches the storage, whose outcome is fixed
in the state, so it is unused here. -/
def vectorNext (_ctx : Bool) (st : VectorSelState) :
    Except Err (List StepVector) × VectorSelState :=
  if st.currentStep > st.maxt then (.ok [], st)
  else
    match loadSeriesV st with
    | (st1, some e) => (.error e, st1)
    | (st1, none) =>
      let totalSteps : Int :=
        if st1.step ≠ 0 then (st1.maxt - st1.mint).tdiv st1.step + 1 else 1
      let st2 := if st1.step = 0 then { st1 with step := 1 } else st1
      let numSteps : Int := min st2.stepsBatch totalSteps
      let r := vectorOuter st2.lookbackDelta st2.step st2.maxt numSteps.toNat
        st2.currentStep st2.scanners []
      (.ok r.1, { st2 with
          scanners := r.2
          currentStep := st2.currentStep + st2.step * numSteps })

/-- Arguments of a range-function call (`function.FunctionArgs`, labels
omitted). -/
structure FunctionArgs where
  points : List Point
  stepTime : Int
  selectRange : Int
  offset : Int

/-- A valid sample returned by a range-function call; `none` stands for
the `InvalidSample` sentinel. -/
structure FnResult where
  t : Int
  val : PVal

/-- One series returned by the matrix selector's storage, together with
the error its iterator will surface, if any. -/
structure MatrixSeriesInput where
  signature : Nat
  samples : List Sample
  iterErr : Option Err

/-- Per-series scanner of the matrix selector (`matrixScanner`, labels
omitted). -/
structure MatrixScanner where
  signature : Nat
  previousPoints : List Point
  samples : BufferedIterator

/-- State of the `matrixSelector` operator.  `call` is the range function
applied per window (`o.call`), modelled from the spec as an arbitrary
function into an optional sample. -/
structure MatrixState where
  onceDone : Bool
  storageSeries : Except Err (List MatrixSeriesInput)
  call : FunctionArgs → Option FnResult
  funcName : String
  scanners : List MatrixScanner
  series : List Nat
  numSteps : Int
  mint : Int
  maxt : Int
  step : Int
  selectRange : Int
  offset : Int
  currentStep : Int
  extLookbackDelta : Int

/-- The `matrixSelector.loadSeries` method: same `sync.Once` pattern as
the vector selector; for extended-range functions the buffered iterator is
built with window `selectRange + extLookbackDelta`. -/
def loadSeriesM (st : MatrixState) : MatrixState × Option Err :=
  if st.onceDone then (st, none)
  else
    match st.storageSeries with
    | .error e => ({ st with onceDone := true }, some e)
    | .ok series =>
      let selRange := if IsExtFunction st.funcName then
        st.selectRange + st.extLookbackDelta else st.selectRange
      ({ st with
          onceDone := true
          scanners := series.map (fun s =>
            ⟨s.signature, [], ⟨s.samples, selRange, s.iterErr⟩⟩)
          series := series.map (fun s => s.signature) }, none)

/-- Inner step loop of `matrixSelector.Next` for one scanner: for each
step, select the window points (propagating iterator errors), apply the
range function, append the result under the series signature, store the
points for reuse and reduce the buffer window to `min(selectRange, step)`. -/
def matrixScanSteps (call : FunctionArgs → Option FnResult) (funcName : String)
    (ext selectRange offset step maxt : Int) :
    Nat → Int → Nat → MatrixScanner → List StepVector →
    Except Err (List StepVector × MatrixScanner)
  | 0, _, _, sc, vectors => .ok (vectors, sc)
  | fuel + 1, seriesTs, currStep, sc, vectors =>
    if seriesTs > maxt then .ok (vectors, sc)
    else
      let vectors := if vectors.length ≤ currStep then
        vectors ++ [⟨seriesTs, [], [], [], []⟩] else vectors
      let wmaxt := seriesTs - offset
      let wmint := wmaxt - selectRange
      match selectPoints sc.samples wmint wmaxt sc.previousPoints funcName ext with
      | .error e => .error e
      | .ok rangePoints =>
        let result := call ⟨rangePoints, seriesTs, selectRange, offset⟩
        let vectors := match result with
          | some r =>
            modifyIdx (fun sv =>
              match r.val with
              | .hs h =>
                { sv with
                    t := r.t
                    histIds := sv.histIds ++ [sc.signature]
                    hists := sv.hists ++ [h] }
              | .fl v =>
                { sv with
                    t := r.t
                    sampleIds := sv.sampleIds ++ [sc.signature]
                    samples := sv.samples ++ [v] }) vectors currStep
          | none => vectors
        let stepRange := if selectRange > step then step else selectRange
        let sc : MatrixScanner :=
          { sc with
              previousPoints := rangePoints
              samples := { sc.samples with delta := stepRange } }
        matrixScanSteps call funcName ext selectRange offset step maxt
          fuel (seriesTs + step) (currStep + 1) sc vectors

/-- Outer loop of `matrixSelector.Next` over the scanners. -/
def matrixOuter (call : FunctionArgs → Option FnResult) (funcName : String)
    (ext selectRange offset step maxt : Int) (numSteps : Nat) (ts : Int) :
    List MatrixScanner → List StepVector →
    Except Err (List StepVector × List MatrixScanner)
  | [], vectors => .ok (vectors, [])
  | sc :: rest, vectors =>
    match matrixScanSteps call funcName ext selectRange offset step maxt
      numSteps ts 0 sc vectors with
    | .error e => .error e
    | .ok (vectors1, sc1) =>
      match matrixOuter call funcName ext selectRange offset step maxt
        numSteps ts rest vectors1 with
      | .error e => .error e
      | .ok (vectors2, rest1) => .ok (vectors2, sc1 :: rest1)

/-- The `matrixSelector.Next` method: the cancellation token is checked
first; end-of-stream past `maxt`; then series load, the two-level scan and
the step advance (with `step` forced to 1 for instant queries). -/
def matrixNext (ctx : Bool) (st : MatrixState) :
    Except Err (List StepVector) × MatrixState :=
  if ctx then (.error .canceled, st)
  else if st.currentStep > st.maxt then (.ok [], st)
  else
    match loadSeriesM st with
    | (st1, some e) => (.error e, st1)
    | (st1, none) =>
      match matrixOuter st1.call st1.funcName st1.extLookbackDelta
        st1.selectRange st1.offset st1.step st1.maxt st1.numSteps.toNat
        st1.currentStep st1.scanners [] with
      | .error e => (.error e, st1)
      | .ok (vectors, scanners1) =>
        let newStep := if st1.step = 0 then 1 else st1.step
        (.ok vectors, { st1 with
            scanners := scanners1
            step := newStep
            currentStep := st1.currentStep + newStep * st1.numSteps })

/-- The `matrixSelector.Series` method: load the series (memoized) and
return them (their signatures in this embedding). -/
def matrixSeries (st : MatrixState) : Except Err (List Nat) × MatrixState :=
  match loadSeriesM st with
  | (st1, some e) => (.error e, st1)
  | (st1, none) => (.ok st1.series, st1)

/-- A matrix selector whose storage load fails (used to examine error
propagation across pulls). -/
def matrixStateStorageErr : MatrixState :=
  { onceDone := false
    storageSeries := .error (.storage 7)
    call := fun _ => none
    funcName := "rate"
    scanners := []
    series := []
    numSteps := 2
    mint := 0
    maxt := 10
    step := 1
    selectRange := 5
    offset := 0
    currentStep := 0
    extLookbackDelta := 0 }

/-- A vector selector whose storage load fails. -/
def vectorStateStorageErr : VectorSelState :=
  { onceDone := false
    storageSeries := .error (.storage 7)
    scanners := []
    series := []
    mint := 0
    maxt := 10
    step := 1
    currentStep := 0
    stepsBatch := 2
    lookbackDelta := 0 }

/-- C3: the storage load error is returned on the pull that encountered it,
but the operator is NOT left in a terminal-error state: the `sync.Once`
body that captured the error never runs again, so the second pull (and a
`Series` call) returns a nil error with an empty result instead of the
same error — for both the matrix and the vector selector. -/
theorem loadSeries_error_not_sticky :
    (matrixNext false matrixStateStorageErr).1 = .error (.storage 7) ∧
    (matrixNext false (matrixNext false matrixStateStorageErr).2).1 = .ok [] ∧
    (matrixSeries (matrixNext false matrixStateStorageErr).2).1 = .ok [] ∧
    (vectorNext false vectorStateStorageErr).1 = .error (.storage 7) ∧
    (vectorNext false (vectorNext false vectorStateStorageErr).2).1 = .ok [] :=
  ⟨rfl, rfl, rfl, rfl, rfl⟩

/-- C8 (amended): every pull on the MATRIX selector checks the
cancellation token before doing work; on cancellation the pull returns the
cancellation error, and since the check precedes everything, every
subsequent pull under the cancelled token returns the same error. -/
theorem matrixNext_canceled_terminal (st : MatrixState) :
    (matrixNext true st).1 = .error .canceled ∧
    (matrixNext true (matrixNext true st).2).1 = .error .canceled :=
  ⟨rfl, rfl⟩

/-- A vector selector with loaded series and one sample, used to show its
`Next` ignores the cancellation token. -/
def vectorStateLoaded : VectorSelState :=
  { onceDone := true
    storageSeries := .ok []
    scanners := [⟨1, VectorScanner.init [⟨0, ⟨5, false⟩⟩]⟩]
    series := [1]
    mint := 0
    maxt := 0
    step := 1
    currentStep := 0
    stepsBatch := 2
    lookbackDelta := 0 }

/-- C8 counterexample: a pull on the VECTOR selector under a cancelled
token performs no cancellation check and returns a normal batch, not the
cancellation error. -/
theorem vectorNext_ignores_cancellation :
    (vectorNext true vectorStateLoaded).1 =
      .ok [⟨0, [1], [⟨5, false⟩], [], []⟩] ∧
    (vectorNext true vectorStateLoaded).1 ≠ .error Err.canceled := by
  refine ⟨rfl, ?_⟩
  intro h
  rw [show (vectorNext true vectorStateLoaded).1 =
    Except.ok [⟨0, [1], [⟨5, false⟩], [], []⟩] from rfl] at h
  exact Except.noConfusion h

/-- Helper: `modifyIdx` preserves the length. -/
theorem modifyIdx_length {α : Type} (f : α → α) :
    ∀ (l : List α) (i : Nat), (modifyIdx f l i).length = l.length := by
  intro l
  induction l with
  | nil => intro i; rfl
  | cons x xs ih =>
    intro i
    cases i with
    | zero => rfl
    | succ j => simp [modifyIdx, ih]

/-- Helper: element access after `modifyIdx`. -/
theorem modifyIdx_get {α : Type} (f : α → α) :
    ∀ (l : List α) (i j : Nat) (h : j < (modifyIdx f l i).length)
      (h2 : j < l.length),
      (modifyIdx f l i).get ⟨j, h⟩ =
        if j = i then f (l.get ⟨j, h2⟩) else l.get ⟨j, h2⟩ := by
  intro l
  induction l with
  | nil => intro i j h h2; simp at h2
  | cons x xs ih =>
    intro i j h h2
    cases i with
    | zero =>
      cases j with
      | zero => rfl
      | succ k => simp [modifyIdx]
    | succ i2 =>
      cases j with
      | zero => simp [modifyIdx]
      | succ k =>
        have hk : k < (modifyIdx f xs i2).length := by
          simpa [modifyIdx] using h
        have hk2 : k < xs.length := by simpa using h2
        have := ih i2 k hk hk2
        simp only [modifyIdx, List.get_cons_succ]
        rw [this]
        by_cases hki : k = i2
        · simp [hki]
        · simp [hki, fun hc => hki (Nat.succ_injective hc)]

/-- The step-grid invariant of C7: every step vector of a batch sits at
`base + j * step` and below `maxt`. -/
def OnGrid (base step maxt : Int) (l : List StepVector) : Prop :=
  ∀ (j : Nat) (h : j < l.length),
    (l.get ⟨j, h⟩).t = base + j * step ∧ (l.get ⟨j, h⟩).t ≤ maxt

/-- Helper: the empty batch is on the grid. -/
theorem OnGrid_nil (base step maxt : Int) : OnGrid base step maxt [] := by
  intro j h
  simp at h

/-- Helper: pushing the next grid timestamp preserves the invariant. -/
theorem OnGrid_push (base step maxt : Int) (l : List StepVector)
    (sv : StepVector) (hg : OnGrid base step maxt l)
    (ht : sv.t = base + l.length * step) (hle : sv.t ≤ maxt) :
    OnGrid base step maxt (l ++ [sv]) := by
  intro j h
  rcases Nat.lt_or_ge j l.length with hj | hj
  · rw [List.get_append j hj]
    exact hg j hj
  · have hj2 : j = l.length := by
      have hlen : j < l.length + 1 := by simpa using h
      omega
    subst hj2
    have hgv : (l ++ [sv]).get ⟨l.length, h⟩ = sv := by
      simp
    rw [hgv]
    exact ⟨ht, hle⟩

/-- Helper: an in-place update that keeps the timestamp, or writes the grid
timestamp of its own index, preserves the invariant. -/
theorem OnGrid_modify (base step maxt : Int) (l : List StepVector) (i : Nat)
    (f : StepVector → StepVector) (hg : OnGrid base step maxt l)
    (hf : ∀ sv, (f sv).t = sv.t ∨ (f sv).t = base + i * step) :
    OnGrid base step maxt (modifyIdx f l i) := by
  intro j h
  have h2 : j < l.length := by
    rw [← modifyIdx_length f l i]
    exact h
  rw [modifyIdx_get f l i j h h2]
  by_cases hji : j = i
  · rw [if_pos hji]
    obtain ⟨e1, e2⟩ := hg j h2
    rcases hf (l.get ⟨j, h2⟩) with hcase | hcase
    · rw [hcase]
      exact ⟨e1, e2⟩
    · rw [hcase, ← hji]
      refine ⟨rfl, ?_⟩
      rw [← e1]
      exact e2
  · rw [if_neg hji]
    exact hg j h2

/-- Helper: the per-scanner step loop of the vector selector emits only
grid-aligned step vectors bounded by `maxt`, and never shrinks the batch. -/
theorem vectorScanSteps_grid (lb step maxt : Int) (sig : Nat) :
    ∀ (fuel : Nat) (seriesTs : Int) (currStep : Nat) (sc : VectorScanner)
      (vectors : List StepVector) (base : Int),
      seriesTs = base + currStep * step →
      currStep ≤ vectors.length →
      OnGrid base step maxt vectors →
      OnGrid base step maxt
        (vectorScanSteps lb step maxt sig fuel seriesTs currStep sc vectors).1 ∧
      vectors.length ≤
        (vectorScanSteps lb step maxt sig fuel seriesTs currStep sc vectors).1.length := by
  intro fuel
  induction fuel with
  | zero =>
    intro seriesTs currStep sc vectors base hts hlen hg
    exact ⟨hg, le_refl _⟩
  | succ n ih =>
    intro seriesTs currStep sc vectors base hts hlen hg
    rw [vectorScanSteps]
    by_cases hmax : seriesTs > maxt
    · rw [if_pos hmax]
      exact ⟨hg, le_refl _⟩
    · rw [if_neg hmax]
      by_cases happ : vectors.length ≤ currStep
      · have hlencur : vectors.length = currStep := le_antisymm happ hlen
        simp only [if_pos happ]
        have hg1 : OnGrid base step maxt
            (vectors ++ [⟨seriesTs, [], [], [], []⟩]) := by
          refine OnGrid_push base step maxt vectors _ hg ?_ ?_
          · show seriesTs = base + vectors.length * step
            rw [hlencur, hts]
          · show seriesTs ≤ maxt
            omega
        have hlen1 : (vectors ++ ([⟨seriesTs, [], [], [], []⟩] : List StepVector)).length =
            vectors.length + 1 := by simp
        cases hsel : (sc.selectPoint seriesTs lb).1 with
        | none =>
          simp only [hsel]
          have hres := ih (seriesTs + step) (currStep + 1)
            (sc.selectPoint seriesTs lb).2
            (vectors ++ [⟨seriesTs, [], [], [], []⟩]) base
            (by rw [hts]; push_cast; ring) (by omega) hg1
          exact ⟨hres.1, by omega⟩
        | some pv =>
          rcases pv with ⟨t0, v0⟩
          simp only [hsel]
          have hg2 : OnGrid base step maxt
              (modifyIdx (fun sv =>
                { sv with
                    sampleIds := sv.sampleIds ++ [sig]
                    samples := sv.samples ++ [v0] })
                (vectors ++ [⟨seriesTs, [], [], [], []⟩]) currStep) := by
            refine OnGrid_modify base step maxt _ currStep _ hg1 ?_
            intro sv
            exact Or.inl rfl
          have hlen2 : (modifyIdx (fun sv =>
              { sv with
                  sampleIds := sv.sampleIds ++ [sig]
                  samples := sv.samples ++ [v0] })
              (vectors ++ [⟨seriesTs, [], [], [], []⟩]) currStep).length =
              vectors.length + 1 := by
            rw [modifyIdx_length]
            simp
          have hres := ih (seriesTs + step) (currStep + 1)
            (sc.selectPoint seriesTs lb).2 _ base
            (by rw [hts]; push_cast; ring) (by omega) hg2
          exact ⟨hres.1, by omega⟩
      · simp only [if_neg happ]
        have hlen1 : currStep + 1 ≤ vectors.length := by omega
        cases hsel : (sc.selectPoint seriesTs lb).1 with
        | none =>
          simp only [hsel]
          have hres := ih (seriesTs + step) (currStep + 1)
            (sc.selectPoint seriesTs lb).2 vectors base
            (by rw [hts]; push_cast; ring) hlen1 hg
          exact hres
        | some pv =>
          rcases pv with ⟨t0, v0⟩
          simp only [hsel]
          have hg2 : OnGrid base step maxt
              (modifyIdx (fun sv =>
                { sv with
                    sampleIds := sv.sampleIds ++ [sig]
                    samples := sv.samples ++ [v0] }) vectors currStep) := by
            refine OnGrid_modify base step maxt _ currStep _ hg ?_
            intro sv
            exact Or.inl rfl
          have hlen2 : (modifyIdx (fun sv =>
              { sv with
                  sampleIds := sv.sampleIds ++ [sig]
                  samples := sv.samples ++ [v0] }) vectors currStep).length =
              vectors.length := modifyIdx_length _ _ _
          have hres := ih (seriesTs + step) (currStep + 1)
            (sc.selectPoint seriesTs lb).2 _ base
            (by rw [hts]; push_cast; ring) (by omega) hg2
          exact ⟨hres.1, by omega⟩

/-- Helper: the scanner fold of the vector selector preserves the grid
invariant of the batch. -/
theorem vectorOuter_grid (lb step maxt : Int) (numSteps : Nat) (ts : Int) :
    ∀ (scs : List VScanner) (vectors : List StepVector),
      OnGrid ts step maxt vectors →
      OnGrid ts step maxt (vectorOuter lb step maxt numSteps ts scs vectors).1 := by
  intro scs
  induction scs with
  | nil => intro vectors hg; exact hg
  | cons sc rest ih =>
    intro vectors hg
    have h1 := vectorScanSteps_grid lb step maxt sc.signature numSteps ts 0
      sc.sc vectors ts (by push_cast; ring) (Nat.zero_le _) hg
    exact ih _ h1.1

/-- Helper: `loadSeriesV` only touches the memoization fields. -/
theorem loadSeriesV_fields (st : VectorSelState) :
    (loadSeriesV st).1.mint = st.mint ∧ (loadSeriesV st).1.maxt = st.maxt ∧
    (loadSeriesV st).1.step = st.step ∧
    (loadSeriesV st).1.currentStep = st.currentStep ∧
    (loadSeriesV st).1.stepsBatch = st.stepsBatch ∧
    (loadSeriesV st).1.lookbackDelta = st.lookbackDelta := by
  unfold loadSeriesV
  by_cases h : st.onceDone
  · simp [h]
  · cases hs : st.storageSeries <;> simp [h]

/-- Helper: every successful `vectorSelector.Next` batch is step-aligned
from the current step (with step 1 substituted for instant queries) and
bounded by `maxt`. -/
theorem vectorNext_grid (st : VectorSelState) (vectors : List StepVector)
    (st2 : VectorSelState)
    (h : vectorNext false st = (.ok vectors, st2)) :
    OnGrid st.currentStep (if st.step = 0 then 1 else st.step) st.maxt vectors := by
  unfold vectorNext at h
  by_cases hend : st.currentStep > st.maxt
  · rw [if_pos hend] at h
    simp only [Prod.mk.injEq] at h
    obtain ⟨h1, _⟩ := h
    cases h1
    exact OnGrid_nil _ _ _
  · rw [if_neg hend] at h
    rcases hload : loadSeriesV st with ⟨st1, oe⟩
    have hfields := loadSeriesV_fields st
    rw [hload] at h hfields
    cases oe with
    | some e =>
      dsimp only at h
      simp at h
    | none =>
      dsimp only at h
      obtain ⟨hmint, hmaxt, hstep, hcur, hbatch, hlb⟩ := hfields
      dsimp only at hmint hmaxt hstep hcur hbatch hlb
      by_cases hstep0 : st1.step = 0
      · rw [if_pos hstep0] at h
        simp only [Prod.mk.injEq, Except.ok.injEq] at h
        obtain ⟨h1, _⟩ := h
        subst h1
        have hcond : (if st.step = 0 then (1 : Int) else st.step) = 1 :=
          if_pos (by omega)
        rw [hcond, ← hcur, ← hmaxt]
        exact vectorOuter_grid _ _ _ _ _ _ [] (OnGrid_nil _ _ _)
      · rw [if_neg hstep0] at h
        simp only [Prod.mk.injEq, Except.ok.injEq] at h
        obtain ⟨h1, _⟩ := h
        subst h1
        have hcond : (if st.step = 0 then (1 : Int) else st.step) = st1.step := by
          rw [if_neg (by omega : ¬ st.step = 0), hstep]
        rw [hcond, ← hcur, ← hmaxt]
        exact vectorOuter_grid _ _ _ _ _ _ [] (OnGrid_nil _ _ _)

/-- Helper: the per-scanner step loop of the matrix selector keeps the
batch grid-aligned (under the spec-modelled assumption that the range
function reports the step time as its result timestamp) and never shrinks
the batch. -/
theorem matrixScanSteps_grid (call : FunctionArgs → Option FnResult)
    (funcName : String) (ext selectRange offset step maxt : Int)
    (hcall : ∀ (args : FunctionArgs) (r : FnResult),
      call args = some r → r.t = args.stepTime) :
    ∀ (fuel : Nat) (seriesTs : Int) (currStep : Nat) (sc : MatrixScanner)
      (vectors : List StepVector) (base : Int)
      (res : List StepVector × MatrixScanner),
      seriesTs = base + currStep * step →
      currStep ≤ vectors.length →
      OnGrid base step maxt vectors →
      matrixScanSteps call funcName ext selectRange offset step maxt
        fuel seriesTs currStep sc vectors = .ok res →
      OnGrid base step maxt res.1 ∧ vectors.length ≤ res.1.length := by
  intro fuel
  induction fuel with
  | zero =>
    intro seriesTs currStep sc vectors base res hts hlen hg hok
    rw [matrixScanSteps] at hok
    simp only [Except.ok.injEq] at hok
    subst hok
    exact ⟨hg, le_refl _⟩
  | succ n ih =>
    intro seriesTs currStep sc vectors base res hts hlen hg hok
    rw [matrixScanSteps] at hok
    by_cases hmax : seriesTs > maxt
    · rw [if_pos hmax] at hok
      simp only [Except.ok.injEq] at hok
      subst hok
      exact ⟨hg, le_refl _⟩
    · rw [if_neg hmax] at hok
      dsimp only at hok
      by_cases happ : vectors.length ≤ currStep
      · have hlencur : vectors.length = currStep := le_antisymm happ hlen
        rw [if_pos happ] at hok
        have hg1 : OnGrid base step maxt
            (vectors ++ [⟨seriesTs, [], [], [], []⟩]) := by
          refine OnGrid_push base step maxt vectors _ hg ?_ ?_
          · show seriesTs = base + vectors.length * step
            rw [hlencur, hts]
          · show seriesTs ≤ maxt
            omega
        have hlen1 : (vectors ++
            ([⟨seriesTs, [], [], [], []⟩] : List StepVector)).length =
            vectors.length + 1 := by simp
        cases hsp : selectPoints sc.samples (seriesTs - offset - selectRange)
            (seriesTs - offset) sc.previousPoints funcName ext with
        | error e =>
          rw [hsp] at hok
          simp at hok
        | ok rangePoints =>
          rw [hsp] at hok
          dsimp only at hok
          cases hcr : call ⟨rangePoints, seriesTs, selectRange, offset⟩ with
          | none =>
            rw [hcr] at hok
            dsimp only at hok
            have hres := ih (seriesTs + step) (currStep + 1) _ _ base res
              (by rw [hts]; push_cast; ring) (by omega) hg1 hok
            exact ⟨hres.1, by omega⟩
          | some r =>
            rw [hcr] at hok
            dsimp only at hok
            have hrt : r.t = seriesTs := hcall _ r hcr
            have hg2 : OnGrid base step maxt
                (modifyIdx (fun sv =>
                  match r.val with
                  | .hs hv =>
                    { sv with
                        t := r.t
                        histIds := sv.histIds ++ [sc.signature]
                        hists := sv.hists ++ [hv] }
                  | .fl v =>
                    { sv with
                        t := r.t
                        sampleIds := sv.sampleIds ++ [sc.signature]
                        samples := sv.samples ++ [v] })
                  (vectors ++ [⟨seriesTs, [], [], [], []⟩]) currStep) := by
              refine OnGrid_modify base step maxt _ currStep _ hg1 ?_
              intro sv
              refine Or.inr ?_
              cases r.val with
              | hs hv =>
                show r.t = base + currStep * step
                rw [hrt, hts]
              | fl v =>
                show r.t = base + currStep * step
                rw [hrt, hts]
            have hres := ih (seriesTs + step) (currStep + 1) _ _ base res
              (by rw [hts]; push_cast; ring)
              (by rw [modifyIdx_length]; simp; omega) hg2 hok
            refine ⟨hres.1, ?_⟩
            have hlen2 := hres.2
            rw [modifyIdx_length] at hlen2
            simp at hlen2
            omega
      · rw [if_neg happ] at hok
        have hlen1 : currStep + 1 ≤ vectors.length := by omega
        cases hsp : selectPoints sc.samples (seriesTs - offset - selectRange)
            (seriesTs - offset) sc.previousPoints funcName ext with
        | error e =>
          rw [hsp] at hok
          simp at hok
        | ok rangePoints =>
          rw [hsp] at hok
          dsimp only at hok
          cases hcr : call ⟨rangePoints, seriesTs, selectRange, offset⟩ with
          | none =>
            rw [hcr] at hok
            dsimp only at hok
            exact ih (seriesTs + step) (currStep + 1) _ _ base res
              (by rw [hts]; push_cast; ring) hlen1 hg hok
          | some r =>
            rw [hcr] at hok
            dsimp only at hok
            have hrt : r.t = seriesTs := hcall _ r hcr
            have hg2 : OnGrid base step maxt
                (modifyIdx (fun sv =>
                  match r.val with
                  | .hs hv =>
                    { sv with
                        t := r.t
                        histIds := sv.histIds ++ [sc.signature]
                        hists := sv.hists ++ [hv] }
                  | .fl v =>
                    { sv with
                        t := r.t
                        sampleIds := sv.sampleIds ++ [sc.signature]
                        samples := sv.samples ++ [v] })
                  vectors currStep) := by
              refine OnGrid_modify base step maxt _ currStep _ hg ?_
              intro sv
              refine Or.inr ?_
              cases r.val with
              | hs hv =>
                show r.t = base + currStep * step
                rw [hrt, hts]
              | fl v =>
                show r.t = base + currStep * step
                rw [hrt, hts]
            have hres := ih (seriesTs + step) (currStep + 1) _ _ base res
              (by rw [hts]; push_cast; ring)
              (by rw [modifyIdx_length]; omega) hg2 hok
            refine ⟨hres.1, ?_⟩
            have hlen2 := hres.2
            rw [modifyIdx_length] at hlen2
            omega

/-- Helper: the scanner fold of the matrix selector preserves the grid
invariant of a successful batch. -/
theorem matrixOuter_grid (call : FunctionArgs → Option FnResult)
    (funcName : String) (ext selectRange offset step maxt : Int)
    (numSteps : Nat) (ts : Int)
    (hcall : ∀ (args : FunctionArgs) (r : FnResult),
      call args = some r → r.t = args.stepTime) :
    ∀ (scs : List MatrixScanner) (vectors : List StepVector)
      (res : List StepVector × List MatrixScanner),
      OnGrid ts step maxt vectors →
      matrixOuter call funcName ext selectRange offset step maxt
        numSteps ts scs vectors = .ok res →
      OnGrid ts step maxt res.1 := by
  intro scs
  induction scs with
  | nil =>
    intro vectors res hg hok
    rw [matrixOuter] at hok
    simp only [Except.ok.injEq] at hok
    subst hok
    exact hg
  | cons sc rest ih =>
    intro vectors res hg hok
    rw [matrixOuter] at hok
    cases hs1 : matrixScanSteps call funcName ext selectRange offset step maxt
        numSteps ts 0 sc vectors with
    | error e =>
      rw [hs1] at hok
      simp at hok
    | ok p =>
      rw [hs1] at hok
      obtain ⟨vectors1, sc1⟩ := p
      dsimp only at hok
      cases hs2 : matrixOuter call funcName ext selectRange offset step maxt
          numSteps ts rest vectors1 with
      | error e =>
        rw [hs2] at hok
        simp at hok
      | ok q =>
        rw [hs2] at hok
        obtain ⟨vectors2, rest1⟩ := q
        dsimp only at hok
        simp only [Except.ok.injEq] at hok
        subst hok
        have hg1 := (matrixScanSteps_grid call funcName ext selectRange offset
          step maxt hcall numSteps ts 0 sc vectors ts (vectors1, sc1)
          (by push_cast; ring) (Nat.zero_le _) hg hs1).1
        exact ih vectors1 (vectors2, rest1) hg1 hs2

/-- Helper: `loadSeriesM` only touches the memoization fields. -/
theorem loadSeriesM_fields (st : MatrixState) :
    (loadSeriesM st).1.maxt = st.maxt ∧ (loadSeriesM st).1.step = st.step ∧
    (loadSeriesM st).1.currentStep = st.currentStep ∧
    (loadSeriesM st).1.numSteps = st.numSteps ∧
    (loadSeriesM st).1.call = st.call ∧
    (loadSeriesM st).1.funcName = st.funcName ∧
    (loadSeriesM st).1.selectRange = st.selectRange ∧
    (loadSeriesM st).1.offset = st.offset ∧
    (loadSeriesM st).1.extLookbackDelta = st.extLookbackDelta := by
  unfold loadSeriesM
  by_cases h : st.onceDone
  · simp [h]
  · cases hs : st.storageSeries <;> simp [h]

/-- Helper: every successful `matrixSelector.Next` batch is step-aligned
from the current step and bounded by `maxt`. -/
theorem matrixNext_grid (st : MatrixState) (vectors : List StepVector)
    (st2 : MatrixState)
    (hcall : ∀ (args : FunctionArgs) (r : FnResult),
      st.call args = some r → r.t = args.stepTime)
    (h : matrixNext false st = (.ok vectors, st2)) :
    OnGrid st.currentStep st.step st.maxt vectors := by
  unfold matrixNext at h
  rw [if_neg Bool.false_ne_true] at h
  by_cases hend : st.currentStep > st.maxt
  · rw [if_pos hend] at h
    simp only [Prod.mk.injEq] at h
    obtain ⟨h1, _⟩ := h
    cases h1
    exact OnGrid_nil _ _ _
  · rw [if_neg hend] at h
    rcases hload : loadSeriesM st with ⟨st1, oe⟩
    have hfields := loadSeriesM_fields st
    rw [hload] at h hfields
    cases oe with
    | some e =>
      dsimp only at h
      simp at h
    | none =>
      dsimp only at h
      obtain ⟨hmaxt, hstep, hcur, hnum, hc, hfn, hsel, hoff, hext⟩ := hfields
      dsimp only at hmaxt hstep hcur hnum hc hfn hsel hoff hext
      cases hmo : matrixOuter st1.call st1.funcName st1.extLookbackDelta
          st1.selectRange st1.offset st1.step st1.maxt st1.numSteps.toNat
          st1.currentStep st1.scanners [] with
      | error e =>
        rw [hmo] at h
        dsimp only at h
        simp at h
      | ok p =>
        rw [hmo] at h
        obtain ⟨vecs, scs1⟩ := p
        dsimp only at h
        simp only [Prod.mk.injEq, Except.ok.injEq] at h
        obtain ⟨h1, _⟩ := h
        subst h1
        have hcall1 : ∀ (args : FunctionArgs) (r : FnResult),
            st1.call args = some r → r.t = args.stepTime := by
          intro args r hx
          refine hcall args r ?_
          rw [← hc]
          exact hx
        rw [← hcur, ← hstep, ← hmaxt]
        exact matrixOuter_grid st1.call st1.funcName st1.extLookbackDelta
          st1.selectRange st1.offset st1.step st1.maxt st1.numSteps.toNat
          st1.currentStep hcall1 st1.scanners [] (vecs, scs1)
          (OnGrid_nil _ _ _) hmo

/-- C7: for every batch returned by a pull on a vector or matrix selector,
the step-vector timestamps form the exact arithmetic progression
`currentStep, currentStep + step, ...` bounded by `maxt` (the vector
selector substitutes step 1 for instant queries before stepping; the
matrix statement assumes, as the function package guarantees, that a range
function call reports the step time as its result timestamp). -/
theorem selector_batches_step_aligned :
    (∀ (st : VectorSelState) (vectors : List StepVector) (st2 : VectorSelState),
      vectorNext false st = (.ok vectors, st2) →
      OnGrid st.currentStep (if st.step = 0 then 1 else st.step) st.maxt vectors) ∧
    (∀ (st : MatrixState) (vectors : List StepVector) (st2 : MatrixState),
      (∀ (args : FunctionArgs) (r : FnResult),
        st.call args = some r → r.t = args.stepTime) →
      matrixNext false st = (.ok vectors, st2) →
      OnGrid st.currentStep st.step st.maxt vectors) :=
  ⟨vectorNext_grid, fun st vectors st2 hcall h =>
    matrixNext_grid st vectors st2 hcall h⟩

/-- Vector selector state for the C7 witness: two samples, two steps. -/
def wVectorState : VectorSelState :=
  { onceDone := true
    storageSeries := .ok []
    scanners := [⟨1, VectorScanner.init [⟨0, ⟨5, false⟩⟩, ⟨1, ⟨6, false⟩⟩]⟩]
    series := [1]
    mint := 0
    maxt := 2
    step := 1
    currentStep := 0
    stepsBatch := 2
    lookbackDelta := 0 }

/-- Matrix selector state for the C7 witness: one series, two steps of
width 2, a call function echoing the step time. -/
def wMatrixState : MatrixState :=
  { onceDone := true
    storageSeries := .ok []
    call := fun args => some ⟨args.stepTime, .fl ⟨1, false⟩⟩
    funcName := "sum_over_time"
    scanners := [⟨1, [], ⟨[.float 0 ⟨2, false⟩], 5, none⟩⟩]
    series := [1]
    numSteps := 2
    mint := 0
    maxt := 2
    step := 2
    selectRange := 5
    offset := 0
    currentStep := 0
    extLookbackDelta := 0 }

/-- C7 witness: concrete two-step batches of both selectors are on the
step grid. -/
theorem selector_batches_step_aligned_witness :
    OnGrid 0 1 2
      [⟨0, [1], [⟨5, false⟩], [], []⟩, ⟨1, [1], [⟨6, false⟩], [], []⟩] ∧
    OnGrid 0 2 2
      [⟨0, [1], [⟨1, false⟩], [], []⟩, ⟨2, [1], [⟨1, false⟩], [], []⟩] := by
  constructor
  · exact selector_batches_step_aligned.1 wVectorState
      [⟨0, [1], [⟨5, false⟩], [], []⟩, ⟨1, [1], [⟨6, false⟩], [], []⟩]
      (vectorNext false wVectorState).2 rfl
  · exact selector_batches_step_aligned.2 wMatrixState
      [⟨0, [1], [⟨1, false⟩], [], []⟩, ⟨2, [1], [⟨1, false⟩], [], []⟩]
      (matrixNext false wMatrixState).2
      (fun args r hx => by
        simp only [wMatrixState] at hx
        cases hx
        rfl)
      rfl

end scan
